import Mathlib

/-!
# A verification development for `sync_folders.py`

This file gives a shallow embedding of the one-way folder synchroniser
(`calculate_md5` and `sync_folders` in `sync_folders.py`) and proves, or
refutes, the behavioural properties stated for it.

Modelling choices, stated once here:

* A directory tree is the inductive `Entry`: a file with byte content, or a
  directory with a list of named children.  File and directory names are
  opaque identifiers (`Name := Nat`); byte contents are `List Nat`.
* The digest of a file is modelled as its byte content.  MD5 is treated as
  collision free, which is the idealisation the program itself relies on
  ("two files with the same digest are content-identical").  The chunked
  accumulator structure of `calculate_md5` is modelled separately
  (`readChunks`, `md5_update`, `md5_absorb`) at the byte level.
* Python exceptions are modelled explicitly: `calculate_md5` returns
  `Option` (its internal `try`/`except` catches everything and returns
  `None`); an exception escaping a statement that is *not* wrapped in a
  per-entry `try` sets an `aborted` flag, after which the rest of the body
  of the outer `try` (lines 62-104) is skipped, mirroring control jumping
  to the handler at line 106.
* Fault injection (`Faults`) covers the I/O failures the claims speak
  about: unreadable files on either side (failing `open`/`read`, hence a
  failing digest, and a failing `shutil.copy2` when on the source side)
  and failing creation of a missing root directory.
* Every performed mutation is recorded in an operation trace (`Op`),
  tagged with the root it targets; the internal `changes_made` flag and
  the Python return value (`Option Bool`, `none` being Python's `None`
  fall-through return) are modelled exactly as in the source.
-/

set_option maxHeartbeats 1600000

namespace SyncFolders

/-- File and directory names, opaque identifiers. -/
abbrev Name := Nat

/-- A path relative to a tree root, as a list of name components. -/
abbrev Path := List Name

/-- File contents as a byte sequence. -/
abbrev Bytes := List Nat

/-- A filesystem tree entry: a file with byte content or a directory with
named children (names are unique within a directory in any real
filesystem; this is the `wfEntry` well-formedness predicate below). -/
inductive Entry : Type where
  | file (content : Bytes)
  | dir (children : List (Name × Entry))

/-- Look a name up in a child list (first match, as a real directory has
unique names). -/
def lookupChild : List (Name × Entry) → Name → Option Entry
  | [], _ => none
  | (m, e) :: rest, n => if m = n then some e else lookupChild rest n

/-- Replace the entry bound to a name in a child list (first occurrence);
the list is unchanged when the name is absent. -/
def setChild : List (Name × Entry) → Name → Entry → List (Name × Entry)
  | [], _, _ => []
  | (m, e) :: rest, n, x =>
    if m = n then (m, x) :: rest else (m, e) :: setChild rest n x

/-- Resolve a relative path in a tree; `none` when no entry exists there
(`os.path.exists` is `(lookupPath e p).isSome`). -/
def lookupPath : Entry → Path → Option Entry
  | e, [] => some e
  | Entry.file _, _ :: _ => none
  | Entry.dir ch, n :: rest =>
    match lookupChild ch n with
    | none => none
    | some c => lookupPath c rest

/-- The observable kind of the entry at a path: `none` = nothing there,
`some none` = a directory, `some (some c)` = a file with content `c`. -/
def kindAt (e : Entry) (p : Path) : Option (Option Bytes) :=
  match lookupPath e p with
  | none => none
  | some (Entry.file c) => some (some c)
  | some (Entry.dir _) => some none

/-- Names of the directory children, in listing order (the `dirs` list of
`os.walk`). -/
def dirNames : List (Name × Entry) → List Name
  | [] => []
  | (n, Entry.dir _) :: rest => n :: dirNames rest
  | (_, Entry.file _) :: rest => dirNames rest

/-- Name/content pairs of the file children, in listing order (the `files`
list of `os.walk`). -/
def fileItems : List (Name × Entry) → List (Name × Bytes)
  | [] => []
  | (n, Entry.file c) :: rest => (n, c) :: fileItems rest
  | (_, Entry.dir _) :: rest => fileItems rest

/-- `os.makedirs(path, exist_ok=True)`: creates every missing directory
along the path; succeeds when the final entry already is a directory;
fails (`FileExistsError`/`NotADirectoryError`, both `OSError`) when a file
stands anywhere on the path. -/
def makedirs : Entry → Path → Option Entry
  | Entry.dir ch, [] => some (Entry.dir ch)
  | Entry.file _, [] => none
  | Entry.file _, _ :: _ => none
  | Entry.dir ch, n :: rest =>
    match lookupChild ch n with
    | some c => (makedirs c rest).map (fun c2 => Entry.dir (setChild ch n c2))
    | none => (makedirs (Entry.dir []) rest).map
        (fun c2 => Entry.dir (ch ++ [(n, c2)]))

/-- Opening a path for writing and storing content `c` there: fails when a
parent is missing or not a directory (`FileNotFoundError` /
`NotADirectoryError`) or the path itself is a directory
(`IsADirectoryError`); overwrites an existing file, creates a missing
one. -/
def writeFile : Entry → Path → Bytes → Option Entry
  | _, [], _ => none
  | Entry.file _, _ :: _, _ => none
  | Entry.dir ch, [n], c =>
    match lookupChild ch n with
    | some (Entry.dir _) => none
    | some (Entry.file _) => some (Entry.dir (setChild ch n (Entry.file c)))
    | none => some (Entry.dir (ch ++ [(n, Entry.file c)]))
  | Entry.dir ch, n :: m :: rest, c =>
    match lookupChild ch n with
    | some sub => (writeFile sub (m :: rest) c).map
        (fun s2 => Entry.dir (setChild ch n s2))
    | none => none

/-- Injectable I/O faults: files whose `open`/`read` fails on the source
or replica side, and failing creation of a missing root directory. -/
structure Faults where
  srcUnreadable : List Path
  repUnreadable : List Path
  srcRootCreateFail : Bool
  repRootCreateFail : Bool

/-- The fault-free environment. -/
def noFaults : Faults := ⟨[], [], false, false⟩

/-- The body of `calculate_md5` (lines 22-27) before the `except`: open
the file and fold its chunks into the hash; any failure mode (unreadable,
missing, or a directory) surfaces as an exception value. -/
def md5_read (unread : List Path) (root : Entry) (p : Path) :
    Except Unit Bytes :=
  if p ∈ unread then Except.error ()
  else
    match lookupPath root p with
    | some (Entry.file c) => Except.ok c
    | some (Entry.dir _) => Except.error ()
    | none => Except.error ()

/-- `calculate_md5` (lines 20-30): the `except Exception` clause catches
every exception from the body, logs, and returns `None`. -/
def calculate_md5 (unread : List Path) (root : Entry) (p : Path) :
    Option Bytes :=
  match md5_read unread root p with
  | Except.ok h => some h
  | Except.error _ => none

/-- Which root a recorded filesystem operation targets. -/
inductive RootTag : Type where
  | source
  | replica
deriving DecidableEq

/-- One successful mutating filesystem operation performed by
`sync_folders`, with the root it targets. -/
inductive Op : Type where
  | mkRootDir (r : RootTag)
  | mkdir (r : RootTag) (p : Path)
  | copy (r : RootTag) (p : Path)
  | delete (r : RootTag) (p : Path)
deriving DecidableEq

/-- Whether an operation is one of the actions that set `changes_made` in
the source: root creation (line 57), file copy (line 84), deletion
(line 102).  Pass-1 subdirectory creation (lines 70-74) does not. -/
def Op.changey : Op → Bool
  | Op.mkRootDir _ => true
  | Op.copy _ _ => true
  | Op.delete _ _ => true
  | Op.mkdir _ _ => false

/-- The state threaded through the body of the outer `try` (lines
62-104): the replica tree, the `changes_made` flag, whether an uncaught
exception is propagating (control transferred to line 106), and the trace
of performed operations. -/
structure St where
  rep : Entry
  changes : Bool
  aborted : Bool
  trace : List Op

/-- Lines 70-74: `os.makedirs(os.path.join(replica_root, dir_name),
exist_ok=True)` with a per-entry `try` catching `OSError`: a failure is
logged and skipped, a success that created something is a performed
operation; `changes_made` is never set here. -/
def step_mkdir (p : Path) (n : Name) (s : St) : St :=
  if s.aborted then s
  else
    match makedirs s.rep (p ++ [n]) with
    | some r =>
      if (lookupPath s.rep (p ++ [n])).isSome then { s with rep := r }
      else { s with rep := r,
                    trace := s.trace ++ [Op.mkdir RootTag.replica (p ++ [n])] }
    | none => s

/-- Lines 77-84: the per-file comparison and copy.  `replica_file` exists
check, digest comparison `calculate_md5(source_file) !=
calculate_md5(replica_file)` (the digest of the walked source file is its
content unless its read faults), then `shutil.copy2`: copying from an
unreadable source raises, copying onto an existing directory drops the
file inside it (`dst/basename(src)`), and a failing destination open
raises; there is no per-file `try`, so a raise aborts the outer body. -/
def step_copy (F : Faults) (p : Path) (n : Name) (c : Bytes) (s : St) : St :=
  if s.aborted then s
  else
    let rf := p ++ [n]
    let repExists := (lookupPath s.rep rf).isSome
    let m1 : Option Bytes := if rf ∈ F.srcUnreadable then none else some c
    let m2 : Option Bytes := calculate_md5 F.repUnreadable s.rep rf
    if repExists = false ∨ m1 ≠ m2 then
      if rf ∈ F.srcUnreadable then { s with aborted := true }
      else
        let dst : Path :=
          match lookupPath s.rep rf with
          | some (Entry.dir _) => rf ++ [n]
          | _ => rf
        match writeFile s.rep dst c with
        | some r => { s with rep := r, changes := true,
                             trace := s.trace ++ [Op.copy RootTag.replica dst] }
        | none => { s with aborted := true }
    else s

mutual

/-- The listing `os.walk` produces on a tree rooted at relative path `p`:
top-down, each visited directory yields its relative path and its
children, the root first, then each subdirectory's walk in listing order.
Walking a non-directory yields nothing. -/
def walk1 (p : Path) : Entry → List (Path × List (Name × Entry))
  | Entry.file _ => []
  | Entry.dir ch => (p, ch) :: walkChildren p ch

/-- The concatenated walks of the directory children, in listing order. -/
def walkChildren (p : Path) : List (Name × Entry) →
    List (Path × List (Name × Entry))
  | [] => []
  | (n, e) :: rest => walk1 (p ++ [n]) e ++ walkChildren p rest

end

/-- The body of the pass-1 `for root, dirs, files in os.walk(source)` loop
for one yielded directory: the directory-creation loop (lines 70-74),
then the file comparison/copy loop (lines 77-84). -/
def pass1Visit (F : Faults) (item : Path × List (Name × Entry)) (s : St) :
    St :=
  let s1 := (dirNames item.2).foldl (fun t n => step_mkdir item.1 n t) s
  (fileItems item.2).foldl (fun t nc => step_copy F item.1 nc.1 nc.2 t) s1

/-- Pass 1 (lines 62-84): fold the per-directory body over the walk of
the source tree. -/
def pass1 (F : Faults) (p : Path) (e : Entry) (s : St) : St :=
  (walk1 p e).foldl (fun t it => pass1Visit F it t) s

mutual

/-- Pass 2 (lines 86-104), the walk of the replica tree at relative path
`p`: every entry name missing from the source at the mapped path is deleted
(files listed first, then directories, as `files + dirs`), then the walk
descends into the surviving subdirectories; a directory deleted at this
level is never descended into (`os.walk` silently skips a vanished
directory).  Walking a file yields nothing. -/
def pass2 (src : Entry) (p : Path) : Entry → Entry × List Op
  | Entry.file c => (Entry.file c, [])
  | Entry.dir ch =>
    let checkNames := (fileItems ch).map Prod.fst ++ dirNames ch
    let delOps :=
      (checkNames.filter (fun n => (lookupPath src (p ++ [n])).isNone)).map
        (fun n => Op.delete RootTag.replica (p ++ [n]))
    let pr := pass2Children src p ch
    (Entry.dir pr.1, delOps ++ pr.2)

/-- Keep the children whose mapped source path exists, recursing into the
kept directories in listing order. -/
def pass2Children (src : Entry) (p : Path) :
    List (Name × Entry) → List (Name × Entry) × List Op
  | [] => ([], [])
  | (n, e) :: rest =>
    let pr := pass2Children src p rest
    if (lookupPath src (p ++ [n])).isNone then pr
    else
      match e with
      | Entry.file c => ((n, Entry.file c) :: pr.1, pr.2)
      | Entry.dir ch' =>
        let pe := pass2 src (p ++ [n]) (Entry.dir ch')
        ((n, pe.1) :: pr.1, pe.2 ++ pr.2)

end

/-- The overall outcome of one `sync_folders` call: both root trees
(`none` when the root does not exist), the Python return value (`none` is
Python's `None` from falling off the end of the function, `some b` the
explicit `return changes_made` at line 60), the final `changes_made`
flag, whether the outer `except` (line 106) fired, and the operation
trace. -/
structure SyncResult where
  source : Option Entry
  replica : Option Entry
  ret : Option Bool
  changes : Bool
  aborted : Bool
  trace : List Op

/-- Lines 62-112 given existing roots: pass 1, then — unless an uncaught
exception transferred control to the handler at line 106 — pass 2; the
function then falls off the end (Python returns `None`). -/
def sync_body (F : Faults) (src rep : Entry) (ch0 : Bool) (tr0 : List Op) :
    SyncResult :=
  let s1 := pass1 F [] src ⟨rep, ch0, false, tr0⟩
  if s1.aborted then
    ⟨some src, some s1.rep, none, s1.changes, true, s1.trace⟩
  else
    let pr := pass2 src [] s1.rep
    ⟨some src, some pr.1, none, s1.changes || !pr.2.isEmpty, false,
      s1.trace ++ pr.2⟩

/-- `sync_folders` (lines 46-113).  Root phase (lines 51-60): the source
root first, then the replica root; a missing root is created
(`changes_made = True`), a failing creation logs and executes `return
changes_made` with the flag accumulated so far.  Then the two passes. -/
def sync_folders (F : Faults) (srcRoot repRoot : Option Entry) : SyncResult :=
  match srcRoot with
  | none =>
    if F.srcRootCreateFail then ⟨none, repRoot, some false, false, false, []⟩
    else
      let tr := [Op.mkRootDir RootTag.source]
      match repRoot with
      | none =>
        if F.repRootCreateFail then
          ⟨some (Entry.dir []), none, some true, true, false, tr⟩
        else
          sync_body F (Entry.dir []) (Entry.dir []) true
            (tr ++ [Op.mkRootDir RootTag.replica])
      | some r0 => sync_body F (Entry.dir []) r0 true tr
  | some s0 =>
    match repRoot with
    | none =>
      if F.repRootCreateFail then ⟨some s0, none, some false, false, false, []⟩
      else sync_body F s0 (Entry.dir []) true [Op.mkRootDir RootTag.replica]
    | some r0 => sync_body F s0 r0 false []

/-- The root a recorded operation targets. -/
def Op.targetRoot : Op → RootTag
  | Op.mkRootDir r => r
  | Op.mkdir r _ => r
  | Op.copy r _ => r
  | Op.delete r _ => r

/-- The kind of the entry at a path under the replica root of a result
(`none` when the replica root itself does not exist). -/
def SyncResult.repKindAt (r : SyncResult) (p : Path) : Option (Option Bytes) :=
  match r.replica with
  | some e => kindAt e p
  | none => none

/-- The kind of the entry at a path under the source root of a result
(`none` when the source root itself does not exist). -/
def SyncResult.srcKindAt (r : SyncResult) (p : Path) : Option (Option Bytes) :=
  match r.source with
  | some e => kindAt e p
  | none => none

/-- Line 25, `iter(lambda: f.read(4096), b"")`: the sequence of chunks a
sequential reader of 4096-byte blocks produces from the file's content
(reading stops at the first empty chunk, i.e. at end of file). -/
def readChunks (content : Bytes) : List Bytes :=
  match content with
  | [] => []
  | x :: xs => ((x :: xs).take 4096) :: readChunks ((x :: xs).drop 4096)
termination_by content.length
decreasing_by simp [List.length_drop]; omega

/-- Line 26, `hash_md5.update(chunk)`: feeding a chunk into the running
hash accumulator extends the absorbed byte stream (the documented
semantics of the hashlib accumulator: update-by-parts equals update of
the concatenation). -/
def md5_update (state chunk : Bytes) : Bytes := state ++ chunk

/-- The byte stream absorbed by the accumulator after folding in a list
of chunks, starting from the fresh accumulator of line 23. -/
def md5_absorb (chunks : List Bytes) : Bytes := chunks.foldl md5_update []

mutual

/-- Size of a tree, the induction measure for tree recursion. -/
def entrySize : Entry → Nat
  | Entry.file _ => 1
  | Entry.dir ch => 1 + childrenSize ch

/-- Size of a child list. -/
def childrenSize : List (Name × Entry) → Nat
  | [] => 1
  | (_, e) :: rest => 1 + entrySize e + childrenSize rest

end

/-- Names bound in a child list are pairwise distinct (true of every real
directory listing). -/
def namesNodup : List (Name × Entry) → Bool
  | [] => true
  | (n, _) :: rest => (lookupChild rest n).isNone && namesNodup rest

mutual

/-- A well-formed tree: every directory's child names are distinct. -/
def wfEntry : Entry → Bool
  | Entry.file _ => true
  | Entry.dir ch => namesNodup ch && wfChildren ch

/-- All children well-formed. -/
def wfChildren : List (Name × Entry) → Bool
  | [] => true
  | (_, e) :: rest => wfEntry e && wfChildren rest

end

mutual

/-- No relative path present in both trees is a file on one side and a
directory on the other (the type-mismatch edge the program leaves to
platform behaviour). -/
def compatible : Entry → Entry → Bool
  | Entry.file _, Entry.file _ => true
  | Entry.file _, Entry.dir _ => false
  | Entry.dir _, Entry.file _ => false
  | Entry.dir sch, Entry.dir rch => compatibleChildren sch rch

/-- Check each left child against the equally named right child. -/
def compatibleChildren : List (Name × Entry) → List (Name × Entry) → Bool
  | [], _ => true
  | (n, e) :: rest, rch =>
    (match lookupChild rch n with
     | none => true
     | some r => compatible e r) && compatibleChildren rest rch

end

/-- Replace the subtree at an existing path (used to state that pass 1,
which addresses the replica from its root, only rewrites the subtree
corresponding to the source directory being visited). -/
def putSub (e : Entry) (p : Path) (x : Entry) : Entry :=
  match p, e with
  | [], _ => x
  | _ :: _, Entry.file c => Entry.file c
  | n :: rest, Entry.dir ch =>
    match lookupChild ch n with
    | none => Entry.dir ch
    | some c => Entry.dir (setChild ch n (putSub c rest x))

/-- First-match association lookup on the file listing. -/
def lookupBytes : List (Name × Bytes) → Name → Option Bytes
  | [], _ => none
  | (m, c) :: rest, n => if m = n then some c else lookupBytes rest n

/-- Local effect of one pass-1 `os.makedirs` on the children of the
replica directory being visited: create a fresh empty directory, leave an
existing entry alone (`exist_ok` for a directory, caught-and-skipped
`OSError` for a file). -/
def mkChild (ch : List (Name × Entry)) (n : Name) : List (Name × Entry) :=
  match lookupChild ch n with
  | some _ => ch
  | none => ch ++ [(n, Entry.dir [])]

/-- Local effect of the pass-1 directory loop (lines 70-74) on the
visited replica directory, with the recorded creations. -/
def localMkdirs (p : Path) : List Name → List (Name × Entry) →
    List (Name × Entry) × List Op
  | [], rch => (rch, [])
  | n :: ns, rch =>
    let ops1 : List Op :=
      if (lookupChild rch n).isNone then [Op.mkdir RootTag.replica (p ++ [n])]
      else []
    let pr := localMkdirs p ns (mkChild rch n)
    (pr.1, ops1 ++ pr.2)

/-- Local effect of the pass-1 file loop (lines 77-84) on the visited
replica directory, in the fault-free run: a missing replica file is
created, a replica file with different content is overwritten, an equal
file is left alone.  (The remaining source case — the replica entry is a
directory — is excluded by `compatible` and is a skip here.) -/
def localCopies (p : Path) : List (Name × Bytes) → List (Name × Entry) →
    List (Name × Entry) × (Bool × List Op)
  | [], rch => (rch, (false, []))
  | (n, c) :: fs, rch =>
    match lookupChild rch n with
    | none =>
      let pr := localCopies p fs (rch ++ [(n, Entry.file c)])
      (pr.1, (true, Op.copy RootTag.replica (p ++ [n]) :: pr.2.2))
    | some (Entry.file c') =>
      if c' = c then localCopies p fs rch
      else
        let pr := localCopies p fs (setChild rch n (Entry.file c))
        (pr.1, (true, Op.copy RootTag.replica (p ++ [n]) :: pr.2.2))
    | some (Entry.dir _) => localCopies p fs rch

mutual

/-- The pure, subtree-local description of pass 1 in the fault-free run:
what the walk of a source entry does to the corresponding replica
subtree, together with the `changes_made` delta and the recorded
operations.  (Meaningful when the replica side is a directory whenever
the source side is; other cases are identities, excluded by
`compatible`.) -/
def localP1 (p : Path) : Entry → Entry → Entry × (Bool × List Op)
  | Entry.file _, r => (r, (false, []))
  | Entry.dir _, Entry.file c => (Entry.file c, (false, []))
  | Entry.dir sch, Entry.dir rch =>
    let md := localMkdirs p (dirNames sch) rch
    let cp := localCopies p (fileItems sch) md.1
    let pr := localP1Children p sch cp.1
    (Entry.dir pr.1, (cp.2.1 || pr.2.1, md.2 ++ cp.2.2 ++ pr.2.2))

/-- Descend into the source children, updating the correspondingly named
replica children; as the source names are distinct and each descent only
rewrites its own child, the rewrites are independent and are recorded
child by child. -/
def localP1Children (p : Path) : List (Name × Entry) →
    List (Name × Entry) → List (Name × Entry) × (Bool × List Op)
  | [], rch => (rch, (false, []))
  | (n, e) :: rest, rch =>
    match e with
    | Entry.file _ => localP1Children p rest rch
    | Entry.dir sub =>
      match lookupChild rch n with
      | some r =>
        let pe := localP1 (p ++ [n]) (Entry.dir sub) r
        let tail := localP1Children p rest rch
        (setChild tail.1 n pe.1, (pe.2.1 || tail.2.1, pe.2.2 ++ tail.2.2))
      | none => localP1Children p rest rch

end

/-- All the strict relative extensions of `p` leading to `q` exist in the
tree: exactly the condition under which pass 2 reaches and keeps the
replica entry at `p ++ q` (each level checks `os.path.exists` of the
mapped source path before descending). -/
def survivesB (src : Entry) (p : Path) : Path → Bool
  | [] => true
  | n :: q => (lookupPath src (p ++ [n])).isSome && survivesB src (p ++ [n]) q

mutual

/-- Every entry of the tree exists in `src` below the offset `p`: the
condition under which pass 2 deletes nothing. -/
def coveredBy (src : Entry) (p : Path) : Entry → Bool
  | Entry.file _ => true
  | Entry.dir ch => coveredChildren src p ch

def coveredChildren (src : Entry) (p : Path) : List (Name × Entry) → Bool
  | [] => true
  | (n, e) :: rest =>
    (lookupPath src (p ++ [n])).isSome && coveredBy src (p ++ [n]) e &&
      coveredChildren src p rest

end

/-- How a pass-1 step extends the threaded state: the trace grows by a
batch of replica-targeting creations/copies, and `changes_made` is set
exactly by the flag-setting ones among them. -/
def P1Step (s s' : St) (ops : List Op) : Prop :=
  s'.trace = s.trace ++ ops ∧
  s'.changes = (s.changes || ops.any Op.changey) ∧
  ∀ op ∈ ops, (∃ q, op = Op.mkdir RootTag.replica q) ∨
    ∃ q, op = Op.copy RootTag.replica q

/-! ## Equation lemmas for the mutually recursive functions

The nested-inductive compilation does not always reduce on open terms;
these restate each defining equation propositionally. -/

theorem walk1_file (p : Path) (c : Bytes) : walk1 p (Entry.file c) = [] := rfl

theorem walk1_dir (p : Path) (ch : List (Name × Entry)) :
    walk1 p (Entry.dir ch) = (p, ch) :: walkChildren p ch := rfl

theorem walkChildren_nil (p : Path) : walkChildren p [] = [] := rfl

theorem walkChildren_cons (p : Path) (n : Name) (e : Entry)
    (rest : List (Name × Entry)) :
    walkChildren p ((n, e) :: rest) =
      walk1 (p ++ [n]) e ++ walkChildren p rest := by
  cases e <;> rfl

theorem pass2_file (src : Entry) (p : Path) (c : Bytes) :
    pass2 src p (Entry.file c) = (Entry.file c, []) := rfl

theorem pass2_dir (src : Entry) (p : Path) (ch : List (Name × Entry)) :
    pass2 src p (Entry.dir ch) =
      (Entry.dir (pass2Children src p ch).1,
        ((((fileItems ch).map Prod.fst ++ dirNames ch).filter
            (fun n => (lookupPath src (p ++ [n])).isNone)).map
          (fun n => Op.delete RootTag.replica (p ++ [n]))) ++
          (pass2Children src p ch).2) := rfl

theorem pass2Children_nil (src : Entry) (p : Path) :
    pass2Children src p [] = ([], []) := rfl

theorem pass2Children_cons (src : Entry) (p : Path) (n : Name) (e : Entry)
    (rest : List (Name × Entry)) :
    pass2Children src p ((n, e) :: rest) =
      (if (lookupPath src (p ++ [n])).isNone then pass2Children src p rest
       else
         match e with
         | Entry.file c =>
           ((n, Entry.file c) :: (pass2Children src p rest).1,
             (pass2Children src p rest).2)
         | Entry.dir ch' =>
           ((n, (pass2 src (p ++ [n]) (Entry.dir ch')).1) ::
               (pass2Children src p rest).1,
             (pass2 src (p ++ [n]) (Entry.dir ch')).2 ++
               (pass2Children src p rest).2)) := by
  cases e <;> rfl

theorem localP1_file (p : Path) (c : Bytes) (r : Entry) :
    localP1 p (Entry.file c) r = (r, (false, [])) := rfl

theorem localP1_dir_file (p : Path) (sch : List (Name × Entry)) (c : Bytes) :
    localP1 p (Entry.dir sch) (Entry.file c) = (Entry.file c, (false, [])) :=
  rfl

theorem localP1_dir_dir (p : Path) (sch rch : List (Name × Entry)) :
    localP1 p (Entry.dir sch) (Entry.dir rch) =
      (Entry.dir (localP1Children p sch
          (localCopies p (fileItems sch)
            (localMkdirs p (dirNames sch) rch).1).1).1,
        (((localCopies p (fileItems sch)
              (localMkdirs p (dirNames sch) rch).1).2.1 ||
            (localP1Children p sch
              (localCopies p (fileItems sch)
                (localMkdirs p (dirNames sch) rch).1).1).2.1),
          (localMkdirs p (dirNames sch) rch).2 ++
            (localCopies p (fileItems sch)
              (localMkdirs p (dirNames sch) rch).1).2.2 ++
            (localP1Children p sch
              (localCopies p (fileItems sch)
                (localMkdirs p (dirNames sch) rch).1).1).2.2)) := rfl

theorem localP1Children_nil (p : Path) (rch : List (Name × Entry)) :
    localP1Children p [] rch = (rch, (false, [])) := rfl

theorem localP1Children_cons_file (p : Path) (n : Name) (c : Bytes)
    (rest rch : List (Name × Entry)) :
    localP1Children p ((n, Entry.file c) :: rest) rch =
      localP1Children p rest rch := rfl

theorem localP1Children_cons_dir (p : Path) (n : Name)
    (sub rest rch : List (Name × Entry)) :
    localP1Children p ((n, Entry.dir sub) :: rest) rch =
      (match lookupChild rch n with
       | some r =>
         (setChild (localP1Children p rest rch).1 n
             (localP1 (p ++ [n]) (Entry.dir sub) r).1,
           ((localP1 (p ++ [n]) (Entry.dir sub) r).2.1 ||
               (localP1Children p rest rch).2.1,
             (localP1 (p ++ [n]) (Entry.dir sub) r).2.2 ++
               (localP1Children p rest rch).2.2))
       | none => localP1Children p rest rch) := rfl

theorem coveredBy_file (src : Entry) (p : Path) (c : Bytes) :
    coveredBy src p (Entry.file c) = true := rfl

theorem coveredBy_dir (src : Entry) (p : Path) (ch : List (Name × Entry)) :
    coveredBy src p (Entry.dir ch) = coveredChildren src p ch := rfl

theorem coveredChildren_nil (src : Entry) (p : Path) :
    coveredChildren src p [] = true := rfl

theorem coveredChildren_cons (src : Entry) (p : Path) (n : Name) (e : Entry)
    (rest : List (Name × Entry)) :
    coveredChildren src p ((n, e) :: rest) =
      ((lookupPath src (p ++ [n])).isSome && coveredBy src (p ++ [n]) e &&
        coveredChildren src p rest) := by
  cases e <;> rfl

theorem wfEntry_file (c : Bytes) : wfEntry (Entry.file c) = true := rfl

theorem wfEntry_dir (ch : List (Name × Entry)) :
    wfEntry (Entry.dir ch) = (namesNodup ch && wfChildren ch) := rfl

theorem wfChildren_nil : wfChildren [] = true := rfl

theorem wfChildren_cons (n : Name) (e : Entry)
    (rest : List (Name × Entry)) :
    wfChildren ((n, e) :: rest) = (wfEntry e && wfChildren rest) := by
  cases e <;> rfl

theorem compatible_file_file (c c' : Bytes) :
    compatible (Entry.file c) (Entry.file c') = true := rfl

theorem compatible_file_dir (c : Bytes) (ch : List (Name × Entry)) :
    compatible (Entry.file c) (Entry.dir ch) = false := rfl

theorem compatible_dir_file (ch : List (Name × Entry)) (c : Bytes) :
    compatible (Entry.dir ch) (Entry.file c) = false := rfl

theorem compatible_dir_dir (sch rch : List (Name × Entry)) :
    compatible (Entry.dir sch) (Entry.dir rch) =
      compatibleChildren sch rch := rfl

theorem compatibleChildren_nil (rch : List (Name × Entry)) :
    compatibleChildren [] rch = true := rfl

theorem compatibleChildren_cons (n : Name) (e : Entry)
    (rest rch : List (Name × Entry)) :
    compatibleChildren ((n, e) :: rest) rch =
      ((match lookupChild rch n with
        | none => true
        | some r => compatible e r) && compatibleChildren rest rch) := by
  cases e <;> rfl

theorem entrySize_file (c : Bytes) : entrySize (Entry.file c) = 1 := rfl

theorem entrySize_dir (ch : List (Name × Entry)) :
    entrySize (Entry.dir ch) = 1 + childrenSize ch := rfl

theorem childrenSize_nil : childrenSize [] = 1 := rfl

theorem childrenSize_cons (n : Name) (e : Entry)
    (rest : List (Name × Entry)) :
    childrenSize ((n, e) :: rest) = 1 + entrySize e + childrenSize rest := by
  cases e <;> rfl

/-! ## Basic lemmas about child lists and paths -/

theorem lookupChild_append (ch : List (Name × Entry)) (n m : Name) (x : Entry) :
    lookupChild (ch ++ [(n, x)]) m =
      match lookupChild ch m with
      | some e => some e
      | none => if n = m then some x else none := by
  induction ch with
  | nil => simp [lookupChild]
  | cons hd tl ih =>
    obtain ⟨a, e⟩ := hd
    by_cases h : a = m <;> simp [lookupChild, h, ih]

theorem lookupChild_setChild_self (ch : List (Name × Entry)) (n : Name)
    (x : Entry) (h : (lookupChild ch n).isSome) :
    lookupChild (setChild ch n x) n = some x := by
  induction ch with
  | nil => simp [lookupChild] at h
  | cons hd tl ih =>
    obtain ⟨a, e⟩ := hd
    by_cases hn : a = n
    · simp [lookupChild, setChild, hn]
    · simp [lookupChild, setChild, hn] at h ⊢
      exact ih h

theorem lookupChild_setChild_ne (ch : List (Name × Entry)) (n m : Name)
    (x : Entry) (h : m ≠ n) :
    lookupChild (setChild ch n x) m = lookupChild ch m := by
  induction ch with
  | nil => simp [setChild]
  | cons hd tl ih =>
    obtain ⟨a, e⟩ := hd
    by_cases hn : a = n
    · subst hn
      have ham : ¬a = m := fun hh => h hh.symm
      simp [lookupChild, setChild, ham]
    · by_cases hm : a = m <;> simp [lookupChild, setChild, hn, hm, ih, h]

theorem lookupChild_setChild_isSome (ch : List (Name × Entry)) (n m : Name)
    (x : Entry) :
    (lookupChild (setChild ch n x) m).isSome = (lookupChild ch m).isSome := by
  by_cases h : m = n
  · subst h
    cases hl : lookupChild ch m with
    | none =>
      have : setChild ch m x = ch := by
        induction ch with
        | nil => simp [setChild]
        | cons hd tl ih =>
          obtain ⟨a, e⟩ := hd
          by_cases ha : a = m <;>
            simp_all [lookupChild, setChild]
      simp [this, hl]
    | some c =>
      rw [lookupChild_setChild_self ch m x (by simp [hl])]
      simp [hl]
  · rw [lookupChild_setChild_ne ch n m x h]

theorem setChild_of_lookup_none (ch : List (Name × Entry)) (n : Name)
    (x : Entry) (h : lookupChild ch n = none) : setChild ch n x = ch := by
  induction ch with
  | nil => simp [setChild]
  | cons hd tl ih =>
    obtain ⟨a, e⟩ := hd
    by_cases ha : a = n <;> simp_all [lookupChild, setChild]

theorem setChild_self (ch : List (Name × Entry)) (n : Name) (c : Entry)
    (h : lookupChild ch n = some c) : setChild ch n c = ch := by
  induction ch with
  | nil => simp [lookupChild] at h
  | cons hd tl ih =>
    obtain ⟨a, e⟩ := hd
    by_cases ha : a = n
    · simp [lookupChild, ha] at h
      simp [setChild, ha, h]
    · simp [lookupChild, ha] at h
      simp [setChild, ha, ih h]

theorem setChild_setChild (ch : List (Name × Entry)) (n : Name) (x y : Entry) :
    setChild (setChild ch n x) n y = setChild ch n y := by
  induction ch with
  | nil => simp [setChild]
  | cons hd tl ih =>
    obtain ⟨a, e⟩ := hd
    by_cases ha : a = n <;> simp [setChild, ha, ih]

theorem lookupPath_append (p q : Path) :
    ∀ e : Entry, lookupPath e (p ++ q) =
      (lookupPath e p).bind (fun x => lookupPath x q) := by
  induction p with
  | nil => intro e; simp [lookupPath]
  | cons n p' ih =>
    intro e
    cases e with
    | file c => simp [lookupPath]
    | dir ch =>
      cases h : lookupChild ch n with
      | none => simp [lookupPath, h]
      | some c => simp [lookupPath, h, ih c]

theorem lookupPath_putSub (p : Path) :
    ∀ (e x : Entry), (lookupPath e p).isSome →
      lookupPath (putSub e p x) p = some x := by
  induction p with
  | nil => intro e x _; simp [putSub, lookupPath]
  | cons n p' ih =>
    intro e x h
    cases e with
    | file c => simp [lookupPath] at h
    | dir ch =>
      cases hc : lookupChild ch n with
      | none => simp [lookupPath, hc] at h
      | some c =>
        simp [lookupPath, hc] at h
        simp [putSub, hc, lookupPath,
          lookupChild_setChild_self ch n _ (by simp [hc]), ih c x h]

theorem putSub_append (p q : Path) :
    ∀ (e y z : Entry), lookupPath e p = some y →
      putSub e (p ++ q) z = putSub e p (putSub y q z) := by
  induction p with
  | nil => intro e y z h; simp [lookupPath] at h; simp [putSub, h]
  | cons n p' ih =>
    intro e y z h
    cases e with
    | file c => simp [lookupPath] at h
    | dir ch =>
      cases hc : lookupChild ch n with
      | none => simp [lookupPath, hc] at h
      | some c =>
        simp [lookupPath, hc] at h
        simp [putSub, hc, ih c y z h]

theorem putSub_putSub (p : Path) :
    ∀ (e x y : Entry), (lookupPath e p).isSome →
      putSub (putSub e p x) p y = putSub e p y := by
  induction p with
  | nil => intro e x y _; simp [putSub]
  | cons n p' ih =>
    intro e x y h
    cases e with
    | file c => simp [lookupPath] at h
    | dir ch =>
      cases hc : lookupChild ch n with
      | none => simp [lookupPath, hc] at h
      | some c =>
        simp [lookupPath, hc] at h
        simp [putSub, hc, lookupChild_setChild_self ch n _ (by simp [hc]),
          setChild_setChild, ih c x y h]

theorem makedirs_localize (n : Name) (p : Path) :
    ∀ (e : Entry) (rch : List (Name × Entry)),
      lookupPath e p = some (Entry.dir rch) →
      makedirs e (p ++ [n]) =
        match lookupChild rch n with
        | some (Entry.file _) => none
        | _ => some (putSub e p (Entry.dir (mkChild rch n))) := by
  induction p with
  | nil =>
    intro e rch h
    simp [lookupPath] at h
    subst h
    cases hc : lookupChild rch n with
    | none => simp [makedirs, hc, putSub, mkChild]
    | some c =>
      cases c with
      | file cc => simp [makedirs, hc]
      | dir ch2 =>
        simp [makedirs, hc, putSub, mkChild, setChild_self rch n _ hc]
  | cons m p' ih =>
    intro e rch h
    cases e with
    | file c => simp [lookupPath] at h
    | dir ch =>
      cases hc : lookupChild ch m with
      | none => simp [lookupPath, hc] at h
      | some c =>
        simp [lookupPath, hc] at h
        have hrec := ih c rch h
        cases hn : lookupChild rch n with
        | none =>
          simp [hn] at hrec
          simp [makedirs, hc, hrec, hn, putSub]
        | some c2 =>
          cases c2 with
          | file c3 =>
            simp [hn] at hrec
            simp [makedirs, hc, hrec, hn]
          | dir ch2 =>
            simp [hn] at hrec
            simp [makedirs, hc, hrec, hn, putSub]

theorem writeFile_localize (n : Name) (c : Bytes) (p : Path) :
    ∀ (e : Entry) (rch : List (Name × Entry)),
      lookupPath e p = some (Entry.dir rch) →
      writeFile e (p ++ [n]) c =
        match lookupChild rch n with
        | some (Entry.dir _) => none
        | some (Entry.file _) =>
            some (putSub e p (Entry.dir (setChild rch n (Entry.file c))))
        | none =>
            some (putSub e p (Entry.dir (rch ++ [(n, Entry.file c)]))) := by
  induction p with
  | nil =>
    intro e rch h
    simp [lookupPath] at h
    subst h
    cases hc : lookupChild rch n with
    | none => simp [writeFile, hc, putSub]
    | some c2 => cases c2 <;> simp [writeFile, hc, putSub]
  | cons m p' ih =>
    intro e rch h
    cases e with
    | file cc => simp [lookupPath] at h
    | dir ch =>
      cases hc : lookupChild ch m with
      | none => simp [lookupPath, hc] at h
      | some sub =>
        simp [lookupPath, hc] at h
        have hrec := ih sub rch h
        cases p' with
        | nil =>
          cases hn : lookupChild rch n with
          | none =>
            simp [hn] at hrec
            simp [writeFile, hc, hrec, hn, putSub]
          | some c2 =>
            cases c2 with
            | file c3 =>
              simp [hn] at hrec
              simp [writeFile, hc, hrec, hn, putSub]
            | dir ch2 =>
              simp [hn] at hrec
              simp [writeFile, hc, hrec, hn]
        | cons m2 p'' =>
          cases hn : lookupChild rch n with
          | none =>
            simp [hn] at hrec
            simp [writeFile, hc, hrec, hn, putSub]
          | some c2 =>
            cases c2 with
            | file c3 =>
              simp [hn] at hrec
              simp [writeFile, hc, hrec, hn, putSub]
            | dir ch2 =>
              simp [hn] at hrec
              simp [writeFile, hc, hrec, hn]

theorem putSub_lookup_self (p : Path) :
    ∀ (e x : Entry), lookupPath e p = some x → putSub e p x = e := by
  induction p with
  | nil => intro e x h; simp [lookupPath] at h; simp [putSub, h]
  | cons n p' ih =>
    intro e x h
    cases e with
    | file c => simp [lookupPath] at h
    | dir ch =>
      cases hc : lookupChild ch n with
      | none => simp [lookupPath, hc] at h
      | some c =>
        simp [lookupPath, hc] at h
        simp [putSub, hc, ih c x h, setChild_self ch n c hc]

/-! ## Trace and flag structure of the two passes -/

theorem P1Step_refl (s : St) : P1Step s s [] := by
  simp [P1Step]

theorem P1Step_trans {s t u : St} {ops1 ops2 : List Op}
    (h1 : P1Step s t ops1) (h2 : P1Step t u ops2) :
    P1Step s u (ops1 ++ ops2) := by
  obtain ⟨ht1, hc1, hs1⟩ := h1
  obtain ⟨ht2, hc2, hs2⟩ := h2
  refine ⟨by simp [ht2, ht1], by simp [hc2, hc1, Bool.or_assoc], ?_⟩
  intro op hop
  rcases List.mem_append.1 hop with h | h
  · exact hs1 op h
  · exact hs2 op h

theorem step_mkdir_spec (p : Path) (n : Name) (s : St) :
    ∃ ops, P1Step s (step_mkdir p n s) ops := by
  unfold step_mkdir
  by_cases ha : s.aborted
  · exact ⟨[], by simp [ha, P1Step]⟩
  · simp only [ha, if_false, Bool.false_eq_true]
    cases hm : makedirs s.rep (p ++ [n]) with
    | none => exact ⟨[], by simp [P1Step]⟩
    | some r =>
      by_cases he : (lookupPath s.rep (p ++ [n])).isSome
      · exact ⟨[], by simp [he, P1Step]⟩
      · refine ⟨[Op.mkdir RootTag.replica (p ++ [n])], ?_⟩
        simp [he, P1Step, Op.changey]

theorem step_copy_cases (F : Faults) (p : Path) (n : Name) (c : Bytes)
    (s : St) :
    step_copy F p n c s = s ∨
    step_copy F p n c s =
      { s with aborted := true } ∨
    ∃ r dst, step_copy F p n c s =
      { s with rep := r, changes := true,
               trace := s.trace ++ [Op.copy RootTag.replica dst] } := by
  unfold step_copy
  split
  · exact Or.inl rfl
  · dsimp only
    by_cases hu : p ++ [n] ∈ F.srcUnreadable
    · simp only [hu, if_true]
      split
      · exact Or.inr (Or.inl rfl)
      · exact Or.inl rfl
    · simp only [hu, if_false]
      split
      · split
        · exact Or.inr (Or.inr ⟨_, _, rfl⟩)
        · exact Or.inr (Or.inl rfl)
      · exact Or.inl rfl

theorem step_copy_spec (F : Faults) (p : Path) (n : Name) (c : Bytes)
    (s : St) : ∃ ops, P1Step s (step_copy F p n c s) ops := by
  rcases step_copy_cases F p n c s with h | h | ⟨r, dst, h⟩
  · exact ⟨[], by rw [h]; exact P1Step_refl s⟩
  · exact ⟨[], by simp [h, P1Step]⟩
  · exact ⟨[Op.copy RootTag.replica dst], by simp [h, P1Step, Op.changey]⟩

theorem foldl_mkdir_spec (p : Path) :
    ∀ (ns : List Name) (s : St),
      ∃ ops, P1Step s (ns.foldl (fun t n => step_mkdir p n t) s) ops := by
  intro ns
  induction ns with
  | nil => intro s; exact ⟨[], P1Step_refl s⟩
  | cons n ns ih =>
    intro s
    obtain ⟨ops1, h1⟩ := step_mkdir_spec p n s
    obtain ⟨ops2, h2⟩ := ih (step_mkdir p n s)
    exact ⟨ops1 ++ ops2, by simpa using P1Step_trans h1 h2⟩

theorem foldl_copy_spec (F : Faults) (p : Path) :
    ∀ (fs : List (Name × Bytes)) (s : St),
      ∃ ops, P1Step s
        (fs.foldl (fun t nc => step_copy F p nc.1 nc.2 t) s) ops := by
  intro fs
  induction fs with
  | nil => intro s; exact ⟨[], P1Step_refl s⟩
  | cons nc fs ih =>
    intro s
    obtain ⟨ops1, h1⟩ := step_copy_spec F p nc.1 nc.2 s
    obtain ⟨ops2, h2⟩ := ih (step_copy F p nc.1 nc.2 s)
    exact ⟨ops1 ++ ops2, by simpa using P1Step_trans h1 h2⟩

theorem pass1Visit_spec (F : Faults) (it : Path × List (Name × Entry))
    (s : St) : ∃ ops, P1Step s (pass1Visit F it s) ops := by
  obtain ⟨ops1, h1⟩ := foldl_mkdir_spec it.1 (dirNames it.2) s
  obtain ⟨ops2, h2⟩ := foldl_copy_spec F it.1 (fileItems it.2) _
  exact ⟨ops1 ++ ops2, by simpa [pass1Visit] using P1Step_trans h1 h2⟩

theorem foldl_visit_spec (F : Faults) :
    ∀ (l : List (Path × List (Name × Entry))) (s : St),
      ∃ ops, P1Step s (l.foldl (fun t it => pass1Visit F it t) s) ops := by
  intro l
  induction l with
  | nil => intro s; exact ⟨[], P1Step_refl s⟩
  | cons it l ih =>
    intro s
    obtain ⟨ops1, h1⟩ := pass1Visit_spec F it s
    obtain ⟨ops2, h2⟩ := ih (pass1Visit F it s)
    exact ⟨ops1 ++ ops2, by simpa using P1Step_trans h1 h2⟩

theorem pass1_spec (F : Faults) (p : Path) (e : Entry) (s : St) :
    ∃ ops, P1Step s (pass1 F p e s) ops :=
  foldl_visit_spec F (walk1 p e) s

theorem step_mkdir_of_aborted (p : Path) (n : Name) (s : St)
    (h : s.aborted = true) : step_mkdir p n s = s := by
  simp [step_mkdir, h]

theorem step_copy_of_aborted (F : Faults) (p : Path) (n : Name) (c : Bytes)
    (s : St) (h : s.aborted = true) : step_copy F p n c s = s := by
  simp [step_copy, h]

theorem foldl_mkdir_of_aborted (p : Path) :
    ∀ (ns : List Name) (s : St), s.aborted = true →
      ns.foldl (fun t n => step_mkdir p n t) s = s := by
  intro ns
  induction ns with
  | nil => intro s _; rfl
  | cons n ns ih =>
    intro s h
    simp [step_mkdir_of_aborted p n s h, ih s h]

theorem foldl_copy_of_aborted (F : Faults) (p : Path) :
    ∀ (fs : List (Name × Bytes)) (s : St), s.aborted = true →
      fs.foldl (fun t nc => step_copy F p nc.1 nc.2 t) s = s := by
  intro fs
  induction fs with
  | nil => intro s _; rfl
  | cons nc fs ih =>
    intro s h
    simp [step_copy_of_aborted F p nc.1 nc.2 s h, ih s h]

theorem pass1Visit_of_aborted (F : Faults) (it : Path × List (Name × Entry))
    (s : St) (h : s.aborted = true) : pass1Visit F it s = s := by
  simp only [pass1Visit]
  rw [foldl_mkdir_of_aborted it.1 (dirNames it.2) s h,
    foldl_copy_of_aborted F it.1 (fileItems it.2) s h]

theorem foldl_visit_of_aborted (F : Faults) :
    ∀ (l : List (Path × List (Name × Entry))) (s : St), s.aborted = true →
      l.foldl (fun t it => pass1Visit F it t) s = s := by
  intro l
  induction l with
  | nil => intro s _; rfl
  | cons it l ih =>
    intro s h
    simp only [List.foldl_cons, pass1Visit_of_aborted F it s h, ih s h]

theorem pass1_of_aborted (F : Faults) (p : Path) (e : Entry) (s : St)
    (h : s.aborted = true) : pass1 F p e s = s :=
  foldl_visit_of_aborted F (walk1 p e) s h

theorem entrySize_pos (e : Entry) : 0 < entrySize e := by
  cases e <;> simp [entrySize]

theorem childrenSize_pos (l : List (Name × Entry)) : 0 < childrenSize l := by
  cases l with
  | nil => simp [childrenSize]
  | cons hd tl => obtain ⟨n, e⟩ := hd; simp [childrenSize]

theorem entry_induction (motive1 : Entry → Prop)
    (motive2 : List (Name × Entry) → Prop)
    (hfile : ∀ c, motive1 (Entry.file c))
    (hdir : ∀ ch, motive2 ch → motive1 (Entry.dir ch))
    (hnil : motive2 [])
    (hcons : ∀ n e rest, motive1 e → motive2 rest →
      motive2 ((n, e) :: rest)) :
    (∀ e, motive1 e) ∧ (∀ l, motive2 l) := by
  have key : ∀ k : Nat, (∀ e, entrySize e ≤ k → motive1 e) ∧
      (∀ l, childrenSize l ≤ k → motive2 l) := by
    intro k
    induction k with
    | zero =>
      constructor
      · intro e he
        have := entrySize_pos e
        omega
      · intro l hl
        have := childrenSize_pos l
        omega
    | succ k ih =>
      constructor
      · intro e he
        cases e with
        | file c => exact hfile c
        | dir ch =>
          refine hdir ch (ih.2 ch ?_)
          simp [entrySize] at he
          omega
      · intro l hl
        cases l with
        | nil => exact hnil
        | cons hd rest =>
          obtain ⟨n, e⟩ := hd
          simp [childrenSize] at hl
          exact hcons n e rest (ih.1 e (by omega)) (ih.2 rest (by omega))
  exact ⟨fun e => (key (entrySize e)).1 e le_rfl,
    fun l => (key (childrenSize l)).2 l le_rfl⟩

theorem pass2_ops_all (src : Entry) :
    (∀ (d : Entry) (p : Path), ∀ op ∈ (pass2 src p d).2,
      ∃ q, op = Op.delete RootTag.replica q) ∧
    (∀ (l : List (Name × Entry)) (p : Path),
      ∀ op ∈ (pass2Children src p l).2,
        ∃ q, op = Op.delete RootTag.replica q) := by
  refine entry_induction _ _ ?_ ?_ ?_ ?_
  · intro c p op hop
    simp [pass2_file] at hop
  · intro ch ih p op hop
    simp only [pass2_dir, List.mem_append] at hop
    rcases hop with h | h
    · simp only [List.mem_map, List.mem_filter] at h
      obtain ⟨n, _, rfl⟩ := h
      exact ⟨p ++ [n], rfl⟩
    · exact ih p op h
  · intro p op hop
    simp [pass2Children_nil] at hop
  · intro n e rest ihe ihrest p op hop
    rw [pass2Children_cons] at hop
    by_cases hk : (lookupPath src (p ++ [n])).isNone = true
    · rw [if_pos hk] at hop
      exact ihrest p op hop
    · rw [if_neg hk] at hop
      cases e with
      | file c =>
        dsimp only at hop
        exact ihrest p op hop
      | dir ch' =>
        dsimp only at hop
        rw [List.mem_append] at hop
        rcases hop with h | h
        · exact ihe (p ++ [n]) op h
        · exact ihrest p op h

theorem pass2_ops (src : Entry) (d : Entry) (p : Path) :
    ∀ op ∈ (pass2 src p d).2, ∃ q, op = Op.delete RootTag.replica q :=
  (pass2_ops_all src).1 d p

theorem delete_ops_any (ops : List Op)
    (h : ∀ op ∈ ops, ∃ q, op = Op.delete RootTag.replica q) :
    ops.any Op.changey = !ops.isEmpty := by
  cases ops with
  | nil => rfl
  | cons op rest =>
    obtain ⟨q, rfl⟩ := h op (by simp)
    simp [Op.changey]

theorem sync_body_ret (F : Faults) (src rep : Entry) (ch0 : Bool)
    (tr0 : List Op) : (sync_body F src rep ch0 tr0).ret = none := by
  unfold sync_body
  dsimp only
  split <;> rfl

theorem sync_body_source (F : Faults) (src rep : Entry) (ch0 : Bool)
    (tr0 : List Op) : (sync_body F src rep ch0 tr0).source = some src := by
  unfold sync_body
  dsimp only
  split <;> rfl

theorem sync_body_spec (F : Faults) (src rep : Entry) (ch0 : Bool)
    (tr0 : List Op) :
    ∃ ops, (sync_body F src rep ch0 tr0).trace = tr0 ++ ops ∧
      (sync_body F src rep ch0 tr0).changes = (ch0 || ops.any Op.changey) ∧
      ∀ op ∈ ops, op.targetRoot = RootTag.replica := by
  obtain ⟨ops1, ht1, hc1, hs1⟩ := pass1_spec F [] src ⟨rep, ch0, false, tr0⟩
  have htr : ∀ op ∈ ops1, op.targetRoot = RootTag.replica := by
    intro op hop
    rcases hs1 op hop with ⟨q, rfl⟩ | ⟨q, rfl⟩ <;> rfl
  unfold sync_body
  dsimp only
  by_cases ha : (pass1 F [] src ⟨rep, ch0, false, tr0⟩).aborted = true
  · rw [if_pos ha]
    exact ⟨ops1, by simpa using ht1, by simpa using hc1, htr⟩
  · rw [if_neg ha]
    have hp2 := pass2_ops src (pass1 F [] src ⟨rep, ch0, false, tr0⟩).rep []
    refine ⟨ops1 ++
      (pass2 src [] (pass1 F [] src ⟨rep, ch0, false, tr0⟩).rep).2,
      ?_, ?_, ?_⟩
    · simp [ht1]
    · simp only [List.any_append, delete_ops_any _ hp2]
      simp [hc1, Bool.or_assoc]
    · intro op hop
      rcases List.mem_append.1 hop with h | h
      · exact htr op h
      · obtain ⟨q, rfl⟩ := hp2 op h
        rfl

theorem sync_folders_src_fail (F : Faults) (rr : Option Entry)
    (hf : F.srcRootCreateFail = true) :
    sync_folders F none rr = ⟨none, rr, some false, false, false, []⟩ := by
  simp [sync_folders, hf]

theorem sync_folders_both_missing (F : Faults)
    (hf : F.srcRootCreateFail = false) (hr : F.repRootCreateFail = false) :
    sync_folders F none none =
      sync_body F (Entry.dir []) (Entry.dir []) true
        ([Op.mkRootDir RootTag.source] ++ [Op.mkRootDir RootTag.replica]) := by
  simp [sync_folders, hf, hr]

theorem sync_folders_rep_fail_src_missing (F : Faults)
    (hf : F.srcRootCreateFail = false) (hr : F.repRootCreateFail = true) :
    sync_folders F none none =
      ⟨some (Entry.dir []), none, some true, true, false,
        [Op.mkRootDir RootTag.source]⟩ := by
  simp [sync_folders, hf, hr]

theorem sync_folders_src_missing (F : Faults) (r0 : Entry)
    (hf : F.srcRootCreateFail = false) :
    sync_folders F none (some r0) =
      sync_body F (Entry.dir []) r0 true [Op.mkRootDir RootTag.source] := by
  simp [sync_folders, hf]

theorem sync_folders_rep_missing (F : Faults) (s0 : Entry)
    (hr : F.repRootCreateFail = false) :
    sync_folders F (some s0) none =
      sync_body F s0 (Entry.dir []) true [Op.mkRootDir RootTag.replica] := by
  simp [sync_folders, hr]

theorem sync_folders_rep_fail (F : Faults) (s0 : Entry)
    (hr : F.repRootCreateFail = true) :
    sync_folders F (some s0) none =
      ⟨some s0, none, some false, false, false, []⟩ := by
  simp [sync_folders, hr]

theorem sync_folders_both (F : Faults) (s0 r0 : Entry) :
    sync_folders F (some s0) (some r0) = sync_body F s0 r0 false [] := rfl

theorem sync_body_aborted_trace (F : Faults) (src rep : Entry) (ch0 : Bool)
    (tr0 : List Op)
    (h : (sync_body F src rep ch0 tr0).aborted = true) :
    (sync_body F src rep ch0 tr0).trace =
      (pass1 F [] src ⟨rep, ch0, false, tr0⟩).trace := by
  unfold sync_body at *
  dsimp only at *
  by_cases ha : (pass1 F [] src ⟨rep, ch0, false, tr0⟩).aborted = true
  · rw [if_pos ha]
  · rw [if_neg ha] at h
    simp at h

/-! ## Claim C2: the return value and the `changes_made` flag -/

/-- C2, counterexample.  With an existing source containing one empty
subdirectory and an existing empty replica, the pass performs a
successful directory creation (recorded in the trace), yet the internal
`changes_made` flag stays `false` and the function returns Python's
`None` (not a boolean): both halves of the claimed contract fail. -/
theorem c2_counterexample :
    (sync_folders noFaults (some (Entry.dir [(0, Entry.dir [])]))
        (some (Entry.dir []))).trace = [Op.mkdir RootTag.replica [0]] ∧
    (sync_folders noFaults (some (Entry.dir [(0, Entry.dir [])]))
        (some (Entry.dir []))).changes = false ∧
    (sync_folders noFaults (some (Entry.dir [(0, Entry.dir [])]))
        (some (Entry.dir []))).ret = none := by
  decide

/-- C2, amended.  The internal `changes_made` flag is true exactly when a
flag-setting operation (root creation, file copy, deletion — not a pass-1
subdirectory creation) succeeded during the pass, and the function either
returns `None` (the fall-through of the normal path) or returns the flag
(the early return on root-creation failure). -/
theorem c2_flag_characterization (F : Faults) (srcRoot repRoot : Option Entry) :
    (sync_folders F srcRoot repRoot).changes =
      (sync_folders F srcRoot repRoot).trace.any Op.changey ∧
    ((sync_folders F srcRoot repRoot).ret = none ∨
      (sync_folders F srcRoot repRoot).ret =
        some (sync_folders F srcRoot repRoot).changes) := by
  have body : ∀ (src rep : Entry) (ch0 : Bool) (tr0 : List Op),
      ch0 = tr0.any Op.changey →
      (sync_body F src rep ch0 tr0).changes =
        (sync_body F src rep ch0 tr0).trace.any Op.changey ∧
      ((sync_body F src rep ch0 tr0).ret = none ∨
        (sync_body F src rep ch0 tr0).ret =
          some (sync_body F src rep ch0 tr0).changes) := by
    intro src rep ch0 tr0 h0
    obtain ⟨ops, ht, hc, _⟩ := sync_body_spec F src rep ch0 tr0
    refine ⟨?_, Or.inl (sync_body_ret ..)⟩
    rw [ht, hc, h0]
    simp
  cases srcRoot with
  | none =>
    by_cases hf : F.srcRootCreateFail = true
    · rw [sync_folders_src_fail F repRoot hf]
      simp
    · cases repRoot with
      | none =>
        by_cases hr : F.repRootCreateFail = true
        · rw [sync_folders_rep_fail_src_missing F (by simpa using hf) hr]
          simp [Op.changey]
        · rw [sync_folders_both_missing F (by simpa using hf)
            (by simpa using hr)]
          exact body _ _ _ _ (by simp [Op.changey])
      | some r0 =>
        rw [sync_folders_src_missing F r0 (by simpa using hf)]
        exact body _ _ _ _ (by simp [Op.changey])
  | some s0 =>
    cases repRoot with
    | none =>
      by_cases hr : F.repRootCreateFail = true
      · rw [sync_folders_rep_fail F s0 hr]
        simp
      · rw [sync_folders_rep_missing F s0 (by simpa using hr)]
        exact body _ _ _ _ (by simp [Op.changey])
    | some r0 =>
      rw [sync_folders_both F s0 r0]
      exact body _ _ _ _ (by simp)

/-! ## Claim C10: the frame property -/

/-- C10.  `sync_folders` never touches the source tree — the source root
after a call is what it was, except that a missing source root is created
empty — and every recorded operation targets the replica root, except the
creation of the missing source root itself. -/
theorem c10_frame (F : Faults) (srcRoot repRoot : Option Entry) :
    ((sync_folders F srcRoot repRoot).source = srcRoot ∨
      (srcRoot = none ∧
        (sync_folders F srcRoot repRoot).source = some (Entry.dir []))) ∧
    ∀ op ∈ (sync_folders F srcRoot repRoot).trace,
      op.targetRoot = RootTag.replica ∨ op = Op.mkRootDir RootTag.source := by
  have key : ∀ (src rep : Entry) (ch0 : Bool) (tr0 : List Op),
      (∀ op ∈ tr0, op.targetRoot = RootTag.replica ∨
        op = Op.mkRootDir RootTag.source) →
      ∀ op ∈ (sync_body F src rep ch0 tr0).trace,
        op.targetRoot = RootTag.replica ∨ op = Op.mkRootDir RootTag.source := by
    intro src rep ch0 tr0 h0 op hop
    obtain ⟨ops, ht, _, hs⟩ := sync_body_spec F src rep ch0 tr0
    rw [ht] at hop
    rcases List.mem_append.1 hop with h | h
    · exact h0 op h
    · exact Or.inl (hs op h)
  cases srcRoot with
  | none =>
    by_cases hf : F.srcRootCreateFail = true
    · rw [sync_folders_src_fail F repRoot hf]
      simp
    · cases repRoot with
      | none =>
        by_cases hr : F.repRootCreateFail = true
        · rw [sync_folders_rep_fail_src_missing F (by simpa using hf) hr]
          refine ⟨Or.inr ⟨rfl, rfl⟩, ?_⟩
          intro op hop
          simp at hop
          simp [hop]
        · rw [sync_folders_both_missing F (by simpa using hf)
            (by simpa using hr)]
          refine ⟨Or.inr ⟨rfl, sync_body_source ..⟩, ?_⟩
          refine key _ _ _ _ ?_
          intro op hop
          rcases List.mem_append.1 hop with h | h <;> simp at h <;>
            simp [h, Op.targetRoot]
      | some r0 =>
        rw [sync_folders_src_missing F r0 (by simpa using hf)]
        refine ⟨Or.inr ⟨rfl, sync_body_source ..⟩, ?_⟩
        refine key _ _ _ _ ?_
        intro op hop
        simp at hop
        simp [hop]
  | some s0 =>
    cases repRoot with
    | none =>
      by_cases hr : F.repRootCreateFail = true
      · rw [sync_folders_rep_fail F s0 hr]
        simp
      · rw [sync_folders_rep_missing F s0 (by simpa using hr)]
        refine ⟨Or.inl (sync_body_source ..), ?_⟩
        refine key _ _ _ _ ?_
        intro op hop
        simp at hop
        simp [hop, Op.targetRoot]
    | some r0 =>
      rw [sync_folders_both F s0 r0]
      refine ⟨Or.inl (sync_body_source ..), ?_⟩
      refine key _ _ _ _ ?_
      intro op hop
      simp at hop

/-! ## Claim C4: failure containment -/

/-- C4, counterexample.  One unreadable source file (name `0`) makes the
triggered `shutil.copy2` raise; the exception is not caught per-file, so
the remainder of the pass is skipped: the readable source file `1` is not
copied and the stale replica entry `2` is not deleted.  The claim that
"only that one entry is skipped and all other files still get
synchronized" is false. -/
theorem c4_counterexample :
    (sync_folders ⟨[[0]], [], false, false⟩
        (some (Entry.dir [(0, Entry.file [1]), (1, Entry.file [5])]))
        (some (Entry.dir [(2, Entry.file [9])]))).aborted = true ∧
    (sync_folders ⟨[[0]], [], false, false⟩
        (some (Entry.dir [(0, Entry.file [1]), (1, Entry.file [5])]))
        (some (Entry.dir [(2, Entry.file [9])]))).repKindAt [1] = none ∧
    (sync_folders ⟨[[0]], [], false, false⟩
        (some (Entry.dir [(0, Entry.file [1]), (1, Entry.file [5])]))
        (some (Entry.dir [(2, Entry.file [9])]))).repKindAt [2] =
      some (some [9]) := by
  decide

/-- C4, amended.  A failing per-entry directory creation is indeed
skipped (it leaves the state untouched and never raises), but an
uncaught failure (a raising copy) freezes the state: the rest of pass 1
does nothing, pass 2 never runs — an aborted call performs no deletion
at all — and the pass-boundary handler still lets the call return
normally (`None`). -/
theorem c4_abort_behavior :
    (∀ (p : Path) (n : Name) (s : St), makedirs s.rep (p ++ [n]) = none →
      step_mkdir p n s = s) ∧
    (∀ (F : Faults) (p : Path) (e : Entry) (s : St), s.aborted = true →
      pass1 F p e s = s) ∧
    (∀ (F : Faults) (srcRoot repRoot : Option Entry),
      (sync_folders F srcRoot repRoot).aborted = true →
        (sync_folders F srcRoot repRoot).ret = none ∧
        ∀ op ∈ (sync_folders F srcRoot repRoot).trace, ∀ t q,
          op ≠ Op.delete t q) := by
  refine ⟨?_, ?_, ?_⟩
  · intro p n s h
    unfold step_mkdir
    split
    · rfl
    · rw [h]
  · intro F p e s h
    exact pass1_of_aborted F p e s h
  · intro F srcRoot repRoot h
    have body : ∀ (src rep : Entry) (ch0 : Bool) (tr0 : List Op),
        (∀ op ∈ tr0, ∀ t q, op ≠ Op.delete t q) →
        (sync_body F src rep ch0 tr0).aborted = true →
        (sync_body F src rep ch0 tr0).ret = none ∧
        ∀ op ∈ (sync_body F src rep ch0 tr0).trace, ∀ t q,
          op ≠ Op.delete t q := by
      intro src rep ch0 tr0 h0 hab
      refine ⟨sync_body_ret .., ?_⟩
      rw [sync_body_aborted_trace F src rep ch0 tr0 hab]
      obtain ⟨ops, ht, _, hs⟩ := pass1_spec F [] src ⟨rep, ch0, false, tr0⟩
      rw [ht]
      intro op hop t q
      rcases List.mem_append.1 hop with hh | hh
      · exact h0 op hh t q
      · rcases hs op hh with ⟨q2, rfl⟩ | ⟨q2, rfl⟩ <;> simp
    cases srcRoot with
    | none =>
      by_cases hf : F.srcRootCreateFail = true
      · rw [sync_folders_src_fail F repRoot hf] at h
        simp at h
      · cases repRoot with
        | none =>
          by_cases hr : F.repRootCreateFail = true
          · rw [sync_folders_rep_fail_src_missing F (by simpa using hf) hr]
              at h
            simp at h
          · rw [sync_folders_both_missing F (by simpa using hf)
              (by simpa using hr)] at h ⊢
            refine body _ _ _ _ ?_ h
            intro op hop t q
            rcases List.mem_append.1 hop with hh | hh <;> simp at hh <;>
              simp [hh]
        | some r0 =>
          rw [sync_folders_src_missing F r0 (by simpa using hf)] at h ⊢
          refine body _ _ _ _ ?_ h
          intro op hop t q
          simp at hop
          simp [hop]
    | some s0 =>
      cases repRoot with
      | none =>
        by_cases hr : F.repRootCreateFail = true
        · rw [sync_folders_rep_fail F s0 hr] at h
          simp at h
        · rw [sync_folders_rep_missing F s0 (by simpa using hr)] at h ⊢
          refine body _ _ _ _ ?_ h
          intro op hop t q
          simp at hop
          simp [hop]
      | some r0 =>
        rw [sync_folders_both F s0 r0] at h ⊢
        refine body _ _ _ _ ?_ h
        intro op hop t q
        simp at hop

/-- C4, witness for the amended theorem: a failing `makedirs` (the
replica root here is a file) leaves the state untouched; an aborted state
freezes pass 1; the aborted counterexample run returns `None`. -/
theorem c4_abort_behavior_witness :
    step_mkdir [] 0 ⟨Entry.file [], false, false, []⟩ =
      ⟨Entry.file [], false, false, []⟩ ∧
    pass1 noFaults [] (Entry.dir [(0, Entry.file [1])])
        ⟨Entry.dir [], false, true, []⟩ = ⟨Entry.dir [], false, true, []⟩ ∧
    (sync_folders ⟨[[0]], [], false, false⟩
        (some (Entry.dir [(0, Entry.file [1]), (1, Entry.file [5])]))
        (some (Entry.dir [(2, Entry.file [9])]))).ret = none :=
  ⟨c4_abort_behavior.1 [] 0 ⟨Entry.file [], false, false, []⟩ rfl,
   c4_abort_behavior.2.1 noFaults [] (Entry.dir [(0, Entry.file [1])])
     ⟨Entry.dir [], false, true, []⟩ rfl,
   (c4_abort_behavior.2.2 ⟨[[0]], [], false, false⟩
     (some (Entry.dir [(0, Entry.file [1]), (1, Entry.file [5])]))
     (some (Entry.dir [(2, Entry.file [9])])) (by decide)).1⟩

/-! ## Claim C8: root-creation failure -/

/-- C8, counterexample.  With both roots missing, successful creation of
the source root sets `changes_made` before the replica root creation
fails, so the early return yields `True`, not the claimed "'no changes'
(false)". -/
theorem c8_counterexample :
    (sync_folders ⟨[], [], false, true⟩ none none).ret = some true ∧
    (sync_folders ⟨[], [], false, true⟩ none none).changes = true := by
  decide

/-- C8, amended.  When creating a missing root fails, the call returns
early with the flag accumulated so far — which is `true` exactly when the
missing source root had just been created successfully, and `false`
otherwise — the failure is not propagated (the function returns
normally), no pass operation has run (the trace holds at most the source
root creation), and the replica tree is untouched. -/
theorem c8_root_failure_early_return (F : Faults)
    (srcRoot repRoot : Option Entry)
    (h : (srcRoot = none ∧ F.srcRootCreateFail = true) ∨
      (repRoot = none ∧ F.repRootCreateFail = true ∧
        (srcRoot ≠ none ∨ F.srcRootCreateFail = false))) :
    (sync_folders F srcRoot repRoot).ret =
      some (sync_folders F srcRoot repRoot).changes ∧
    ((sync_folders F srcRoot repRoot).changes = true ↔
      (srcRoot = none ∧ F.srcRootCreateFail = false)) ∧
    (∀ op ∈ (sync_folders F srcRoot repRoot).trace,
      op = Op.mkRootDir RootTag.source) ∧
    (sync_folders F srcRoot repRoot).replica = repRoot := by
  rcases h with ⟨rfl, hf⟩ | ⟨rfl, hr, hsrc⟩
  · rw [sync_folders_src_fail F repRoot hf]
    simp [hf]
  · cases srcRoot with
    | none =>
      have hf : F.srcRootCreateFail = false := by
        rcases hsrc with hs | hs
        · exact absurd rfl hs
        · exact hs
      rw [sync_folders_rep_fail_src_missing F hf hr]
      simp [hf]
    | some s0 =>
      rw [sync_folders_rep_fail F s0 hr]
      simp

/-- C8, witness: both roots missing and replica-root creation failing —
the call returns the flag (true, the source root was created), records
only the source root creation, and leaves the replica missing. -/
theorem c8_root_failure_early_return_witness :
    (sync_folders ⟨[], [], false, true⟩ none none).ret =
      some (sync_folders ⟨[], [], false, true⟩ none none).changes ∧
    ((sync_folders ⟨[], [], false, true⟩ none none).changes = true ↔
      ((none : Option Entry) = none ∧
        (⟨[], [], false, true⟩ : Faults).srcRootCreateFail = false)) ∧
    (∀ op ∈ (sync_folders ⟨[], [], false, true⟩ none none).trace,
      op = Op.mkRootDir RootTag.source) ∧
    (sync_folders ⟨[], [], false, true⟩ none none).replica = none :=
  c8_root_failure_early_return ⟨[], [], false, true⟩ none none
    (Or.inr ⟨rfl, rfl, Or.inr rfl⟩)

/-! ## Claim C1 and C5: counterexamples from a file/directory mismatch -/

/-- C1, counterexample.  Source holds a file named `0`; the replica holds
a directory named `0`.  The call completes without error, yet afterwards
the replica still has a directory where the source has a file (the copy
landed *inside* the directory and pass 2 then deleted it): the claimed
matching of entry types after one successful call is false. -/
theorem c1_counterexample :
    (sync_folders noFaults (some (Entry.dir [(0, Entry.file [49])]))
        (some (Entry.dir [(0, Entry.dir [])]))).aborted = false ∧
    kindAt (Entry.dir [(0, Entry.file [49])]) [0] = some (some [49]) ∧
    (sync_folders noFaults (some (Entry.dir [(0, Entry.file [49])]))
        (some (Entry.dir [(0, Entry.dir [])]))).repKindAt [0] =
      some none := by
  decide

/-- C5, counterexample.  On the same mismatched trees, the second call —
with no external change in between — again copies the file into the
replica directory and again deletes it: it mutates the filesystem, its
`changes_made` flag is true, and it returns `None`, not `False`. -/
theorem c5_counterexample :
    (sync_folders noFaults
        (sync_folders noFaults (some (Entry.dir [(0, Entry.file [49])]))
          (some (Entry.dir [(0, Entry.dir [])]))).source
        (sync_folders noFaults (some (Entry.dir [(0, Entry.file [49])]))
          (some (Entry.dir [(0, Entry.dir [])]))).replica).changes = true ∧
    (sync_folders noFaults
        (sync_folders noFaults (some (Entry.dir [(0, Entry.file [49])]))
          (some (Entry.dir [(0, Entry.dir [])]))).source
        (sync_folders noFaults (some (Entry.dir [(0, Entry.file [49])]))
          (some (Entry.dir [(0, Entry.dir [])]))).replica).trace =
      [Op.copy RootTag.replica [0, 0], Op.delete RootTag.replica [0, 0]] ∧
    (sync_folders noFaults
        (sync_folders noFaults (some (Entry.dir [(0, Entry.file [49])]))
          (some (Entry.dir [(0, Entry.dir [])]))).source
        (sync_folders noFaults (some (Entry.dir [(0, Entry.file [49])]))
          (some (Entry.dir [(0, Entry.dir [])]))).replica).ret = none := by
  decide

/-! ## Claim C3: digest failure during a file comparison -/

/-- C3, counterexample.  Both the source and the replica copy of file `0`
are unreadable: both digests are `None`, `None != None` is false, so the
comparison treats the files as *equal* — no copy happens (empty trace,
stale replica content), contradicting the claim that a digest failure on
either side (including both) forces a copy. -/
theorem c3_counterexample :
    (sync_folders ⟨[[0]], [[0]], false, false⟩
        (some (Entry.dir [(0, Entry.file [1])]))
        (some (Entry.dir [(0, Entry.file [2])]))).aborted = false ∧
    (sync_folders ⟨[[0]], [[0]], false, false⟩
        (some (Entry.dir [(0, Entry.file [1])]))
        (some (Entry.dir [(0, Entry.file [2])]))).repKindAt [0] =
      some (some [2]) ∧
    (sync_folders ⟨[[0]], [[0]], false, false⟩
        (some (Entry.dir [(0, Entry.file [1])]))
        (some (Entry.dir [(0, Entry.file [2])]))).trace = [] := by
  decide

theorem calculate_md5_unread (unread : List Path) (root : Entry) (p : Path)
    (h : p ∈ unread) : calculate_md5 unread root p = none := by
  simp [calculate_md5, md5_read, h]

theorem calculate_md5_file (unread : List Path) (root : Entry) (p : Path)
    (c : Bytes) (h : p ∉ unread) (hl : lookupPath root p = some (Entry.file c)) :
    calculate_md5 unread root p = some c := by
  simp [calculate_md5, md5_read, h, hl]

theorem lookup_parent_of_file (e : Entry) (p : Path) (n : Name) (c' : Bytes)
    (h : lookupPath e (p ++ [n]) = some (Entry.file c')) :
    ∃ rch, lookupPath e p = some (Entry.dir rch) ∧
      lookupChild rch n = some (Entry.file c') := by
  rw [lookupPath_append] at h
  cases hp : lookupPath e p with
  | none => rw [hp] at h; simp at h
  | some parent =>
    rw [hp] at h
    simp only [Option.some_bind] at h
    cases parent with
    | file c => simp [lookupPath] at h
    | dir rch =>
      refine ⟨rch, rfl, ?_⟩
      cases hc : lookupChild rch n with
      | none => simp [lookupPath, hc] at h
      | some c2 =>
        simp only [lookupPath, hc] at h
        cases h
        rfl

theorem writeFile_over_file (e : Entry) (p : Path) (n : Name) (c c' : Bytes)
    (h : lookupPath e (p ++ [n]) = some (Entry.file c')) :
    ∃ e', writeFile e (p ++ [n]) c = some e' ∧
      lookupPath e' (p ++ [n]) = some (Entry.file c) := by
  obtain ⟨rch, hp, hc⟩ := lookup_parent_of_file e p n c' h
  refine ⟨putSub e p (Entry.dir (setChild rch n (Entry.file c))), ?_, ?_⟩
  · rw [writeFile_localize n c p e rch hp, hc]
  · rw [lookupPath_append, lookupPath_putSub p e _ (by simp [hp])]
    simp only [Option.some_bind, lookupPath,
      lookupChild_setChild_self rch n _ (by simp [hc])]

/-- C3, amended.  During a pass-1 file comparison where the replica file
exists: a digest failure on the replica side alone forces a successful
copy of the source file; a digest failure on the source side alone also
makes the comparison unequal, but the forced copy then raises (the
unreadable source) and aborts the pass; if both digests fail, the two
`None` results compare equal and the file is skipped untouched. -/
theorem c3_one_sided_digest_failure (F : Faults) (p : Path) (n : Name)
    (c c' : Bytes) (s : St) (hab : s.aborted = false)
    (hrep : lookupPath s.rep (p ++ [n]) = some (Entry.file c')) :
    ((p ++ [n]) ∈ F.repUnreadable → (p ++ [n]) ∉ F.srcUnreadable →
      (step_copy F p n c s).aborted = false ∧
      (step_copy F p n c s).changes = true ∧
      lookupPath (step_copy F p n c s).rep (p ++ [n]) =
        some (Entry.file c)) ∧
    ((p ++ [n]) ∈ F.srcUnreadable → (p ++ [n]) ∉ F.repUnreadable →
      (step_copy F p n c s).aborted = true) ∧
    ((p ++ [n]) ∈ F.srcUnreadable → (p ++ [n]) ∈ F.repUnreadable →
      step_copy F p n c s = s) := by
  refine ⟨?_, ?_, ?_⟩
  · intro hu hnu
    have hm2 : calculate_md5 F.repUnreadable s.rep (p ++ [n]) = none :=
      calculate_md5_unread _ _ _ hu
    obtain ⟨e', hw, hl⟩ := writeFile_over_file s.rep p n c c' hrep
    unfold step_copy
    rw [if_neg (by simp [hab])]
    dsimp only
    rw [if_pos (by simp [hm2, hnu]), if_neg hnu]
    rw [show (match lookupPath s.rep (p ++ [n]) with
        | some (Entry.dir _) => p ++ [n] ++ [n]
        | _ => p ++ [n]) = p ++ [n] by rw [hrep]]
    rw [hw]
    exact ⟨by simp [hab], rfl, hl⟩
  · intro hu hnr
    have hm2 : calculate_md5 F.repUnreadable s.rep (p ++ [n]) = some c' :=
      calculate_md5_file _ _ _ _ hnr hrep
    unfold step_copy
    rw [if_neg (by simp [hab])]
    dsimp only
    rw [if_pos (by simp [hm2, hu]), if_pos hu]
  · intro hu hr
    have hm2 : calculate_md5 F.repUnreadable s.rep (p ++ [n]) = none :=
      calculate_md5_unread _ _ _ hr
    unfold step_copy
    rw [if_neg (by simp [hab])]
    dsimp only
    rw [if_neg (by simp [hm2, hu, hrep])]

/-- C3, witness for the amended theorem, on the replica-side-failure and
source-side-failure and both-sides-failure scenarios at a one-file
state. -/
theorem c3_one_sided_digest_failure_witness :
    ((step_copy ⟨[], [[0]], false, false⟩ [] 0 [1]
        ⟨Entry.dir [(0, Entry.file [2])], false, false, []⟩).changes = true ∧
      (step_copy ⟨[[0]], [], false, false⟩ [] 0 [1]
        ⟨Entry.dir [(0, Entry.file [2])], false, false, []⟩).aborted = true ∧
      step_copy ⟨[[0]], [[0]], false, false⟩ [] 0 [1]
          ⟨Entry.dir [(0, Entry.file [2])], false, false, []⟩ =
        ⟨Entry.dir [(0, Entry.file [2])], false, false, []⟩) :=
  ⟨(c3_one_sided_digest_failure ⟨[], [[0]], false, false⟩ [] 0 [1] [2]
      ⟨Entry.dir [(0, Entry.file [2])], false, false, []⟩ rfl rfl).1
      (by decide) (by decide) |>.2.1,
   (c3_one_sided_digest_failure ⟨[[0]], [], false, false⟩ [] 0 [1] [2]
      ⟨Entry.dir [(0, Entry.file [2])], false, false, []⟩ rfl rfl).2.1
      (by decide) (by decide),
   (c3_one_sided_digest_failure ⟨[[0]], [[0]], false, false⟩ [] 0 [1] [2]
      ⟨Entry.dir [(0, Entry.file [2])], false, false, []⟩ rfl rfl).2.2
      (by decide) (by decide)⟩

/-! ## Claim C6: the chunked digest -/

theorem md5_absorb_eq_join (l : List Bytes) : md5_absorb l = l.flatten := by
  suffices h : ∀ acc, l.foldl md5_update acc = acc ++ l.flatten by
    simpa [md5_absorb] using h []
  induction l with
  | nil => intro acc; simp
  | cons c tl ih =>
    intro acc
    simp [md5_update, ih, List.append_assoc]

theorem readChunks_join (c : Bytes) : (readChunks c).flatten = c := by
  induction c using readChunks.induct with
  | case1 => simp [readChunks]
  | case2 x xs ih =>
    rw [readChunks]
    simp only [List.flatten_cons, ih]
    exact List.take_append_drop 4096 (x :: xs)

/-- C6.  Folding the 4096-byte chunks of a file into the running hash
accumulator absorbs exactly the file's whole byte content, so the
resulting digest — for any digest function of the absorbed stream —
equals the digest of the entire content in one step; in particular files
with identical content always get identical digests. -/
theorem c6_chunked_digest (digestFn : Bytes → Bytes) (content : Bytes) :
    digestFn (md5_absorb (readChunks content)) = digestFn content := by
  rw [md5_absorb_eq_join, readChunks_join]

/-! ## Claim C9: totality of the fingerprinter -/

/-- C9.  `calculate_md5` is total at its interface: for every input it
either returns the digest the body computed, or the body raised and the
catch-all `except` turns the exception into `None`; no exception escapes
to the caller. -/
theorem c9_md5_total (unread : List Path) (root : Entry) (p : Path) :
    (∃ h, calculate_md5 unread root p = some h ∧
      md5_read unread root p = Except.ok h) ∨
    (calculate_md5 unread root p = none ∧
      ∃ err, md5_read unread root p = Except.error err) := by
  unfold calculate_md5
  cases hm : md5_read unread root p with
  | ok h => exact Or.inl ⟨h, rfl, rfl⟩
  | error e => exact Or.inr ⟨rfl, e, rfl⟩

/-! ## Listing and uniqueness lemmas -/

theorem namesNodup_cons (n : Name) (e : Entry) (rest : List (Name × Entry)) :
    namesNodup ((n, e) :: rest) =
      ((lookupChild rest n).isNone && namesNodup rest) := rfl

theorem mem_of_lookupChild (ch : List (Name × Entry)) (n : Name) (e : Entry)
    (h : lookupChild ch n = some e) : (n, e) ∈ ch := by
  induction ch with
  | nil => simp [lookupChild] at h
  | cons hd tl ih =>
    obtain ⟨m, x⟩ := hd
    by_cases hm : m = n
    · subst hm
      simp [lookupChild] at h
      simp [h]
    · simp [lookupChild, hm] at h
      simp [ih h]

theorem lookupChild_isSome_of_mem (ch : List (Name × Entry)) (n : Name)
    (e : Entry) (h : (n, e) ∈ ch) : (lookupChild ch n).isSome := by
  induction ch with
  | nil => simp at h
  | cons hd tl ih =>
    obtain ⟨m, x⟩ := hd
    rcases List.mem_cons.1 h with heq | hmem
    · cases heq
      simp [lookupChild]
    · by_cases hm : m = n <;> simp [lookupChild, hm, ih hmem]

theorem lookupChild_of_mem_nodup (ch : List (Name × Entry)) (n : Name)
    (e : Entry) (hnd : namesNodup ch = true) (h : (n, e) ∈ ch) :
    lookupChild ch n = some e := by
  induction ch with
  | nil => simp at h
  | cons hd tl ih =>
    obtain ⟨m, x⟩ := hd
    rw [namesNodup_cons] at hnd
    simp only [Bool.and_eq_true] at hnd
    rcases List.mem_cons.1 h with heq | hmem
    · cases heq
      simp [lookupChild]
    · have hm : m ≠ n := by
        intro hh
        subst hh
        have := lookupChild_isSome_of_mem tl m e hmem
        rw [Option.isNone_iff_eq_none.1 hnd.1] at this
        simp at this
      simp [lookupChild, hm, ih hnd.2 hmem]

theorem mem_dirNames_iff (ch : List (Name × Entry)) (n : Name) :
    n ∈ dirNames ch ↔ ∃ sub, (n, Entry.dir sub) ∈ ch := by
  induction ch with
  | nil => simp [dirNames]
  | cons hd tl ih =>
    obtain ⟨m, x⟩ := hd
    cases x with
    | file c =>
      simp only [dirNames, ih]
      constructor
      · rintro ⟨sub, hs⟩
        exact ⟨sub, by simp [hs]⟩
      · rintro ⟨sub, hs⟩
        rcases List.mem_cons.1 hs with heq | hmem
        · cases heq
        · exact ⟨sub, hmem⟩
    | dir sub0 =>
      simp only [dirNames, List.mem_cons, ih]
      constructor
      · rintro (rfl | ⟨sub, hs⟩)
        · exact ⟨_, Or.inl rfl⟩
        · exact ⟨sub, Or.inr hs⟩
      · rintro ⟨sub, heq | hs⟩
        · rw [Prod.mk.injEq] at heq
          exact Or.inl heq.1
        · exact Or.inr ⟨sub, hs⟩

theorem mem_fileItems_iff (ch : List (Name × Entry)) (n : Name) (c : Bytes) :
    (n, c) ∈ fileItems ch ↔ (n, Entry.file c) ∈ ch := by
  induction ch with
  | nil => simp [fileItems]
  | cons hd tl ih =>
    obtain ⟨m, x⟩ := hd
    cases x with
    | file c' =>
      simp only [fileItems, List.mem_cons, ih, Prod.mk.injEq]
      constructor
      · rintro (⟨rfl, rfl⟩ | h)
        · exact Or.inl ⟨rfl, rfl⟩
        · exact Or.inr h
      · rintro (⟨rfl, heq⟩ | h)
        · cases heq
          exact Or.inl ⟨rfl, rfl⟩
        · exact Or.inr h
    | dir sub =>
      simp only [fileItems, ih, List.mem_cons]
      constructor
      · exact fun h => Or.inr h
      · rintro (heq | h)
        · cases heq
        · exact h

theorem lookupChild_dir_mem_dirNames (ch : List (Name × Entry)) (n : Name)
    (sub : List (Name × Entry)) (h : lookupChild ch n = some (Entry.dir sub)) :
    n ∈ dirNames ch :=
  (mem_dirNames_iff ch n).2 ⟨sub, mem_of_lookupChild ch n _ h⟩

theorem lookupBytes_fileItems_none (ch : List (Name × Entry)) (n : Name)
    (h : lookupChild ch n = none) : lookupBytes (fileItems ch) n = none := by
  induction ch with
  | nil => rfl
  | cons hd tl ih =>
    obtain ⟨m, x⟩ := hd
    by_cases hm : m = n
    · subst hm
      simp [lookupChild] at h
    · simp only [lookupChild, hm, if_false] at h
      cases x <;> simp [fileItems, lookupBytes, hm, ih h]

theorem lookupBytes_fileItems (ch : List (Name × Entry)) (n : Name)
    (hnd : namesNodup ch = true) :
    lookupBytes (fileItems ch) n =
      (match lookupChild ch n with
       | some (Entry.file c) => some c
       | _ => none) := by
  induction ch with
  | nil => rfl
  | cons hd tl ih =>
    obtain ⟨m, x⟩ := hd
    rw [namesNodup_cons] at hnd
    simp only [Bool.and_eq_true] at hnd
    by_cases hm : m = n
    · subst hm
      have htl : lookupChild tl m = none := Option.isNone_iff_eq_none.1 hnd.1
      cases x with
      | file c => simp [fileItems, lookupBytes, lookupChild]
      | dir sub =>
        simp only [fileItems, lookupChild, if_pos rfl]
        exact lookupBytes_fileItems_none tl m htl
    · cases x with
      | file c => simp [fileItems, lookupBytes, lookupChild, hm, ih hnd.2]
      | dir sub => simp [fileItems, lookupChild, hm, ih hnd.2]

theorem lookupChild_of_mem_dirNames (ch : List (Name × Entry)) (n : Name)
    (hnd : namesNodup ch = true) (h : n ∈ dirNames ch) :
    ∃ sub, lookupChild ch n = some (Entry.dir sub) := by
  obtain ⟨sub, hs⟩ := (mem_dirNames_iff ch n).1 h
  exact ⟨sub, lookupChild_of_mem_nodup ch n _ hnd hs⟩

theorem setChild_comm (ch : List (Name × Entry)) (n m : Name) (x y : Entry)
    (h : m ≠ n) :
    setChild (setChild ch n x) m y = setChild (setChild ch m y) n x := by
  induction ch with
  | nil => rfl
  | cons hd tl ih =>
    obtain ⟨a, e⟩ := hd
    by_cases ha : a = n
    · subst ha
      have ham : ¬a = m := fun hh => h (hh ▸ rfl)
      simp [setChild, ham]
    · by_cases ham : a = m
      · subst ham
        simp [setChild, ha]
      · simp [setChild, ha, ham, ih]

/-! ## Characterisation of the local pass-1 phases -/

theorem localMkdirs_fst (p : Path) :
    ∀ (ns : List Name) (rch : List (Name × Entry)) (m : Name),
      lookupChild (localMkdirs p ns rch).1 m =
        (match lookupChild rch m with
         | some e => some e
         | none => if m ∈ ns then some (Entry.dir []) else none) := by
  intro ns
  induction ns with
  | nil =>
    intro rch m
    cases h : lookupChild rch m <;> simp [localMkdirs, h]
  | cons n ns ih =>
    intro rch m
    have hfst : (localMkdirs p (n :: ns) rch).1 =
        (localMkdirs p ns (mkChild rch n)).1 := rfl
    rw [hfst, ih (mkChild rch n) m]
    by_cases hm : m = n
    · subst hm
      cases h : lookupChild rch m with
      | some e => simp [mkChild, h]
      | none =>
        simp only [mkChild, h, lookupChild_append]
        simp [h]
    · cases h : lookupChild rch m with
      | some e =>
        cases h2 : lookupChild rch n with
        | some e2 => simp [mkChild, h2, h]
        | none =>
          simp only [mkChild, h2, lookupChild_append, h]
      | none =>
        cases h2 : lookupChild rch n with
        | some e2 => simp [mkChild, h2, h, hm]
        | none =>
          simp only [mkChild, h2, lookupChild_append, h]
          have hnm : ¬n = m := fun hh => hm hh.symm
          simp [hnm, List.mem_cons, fun hh : m = n => hm hh]

theorem lookupBytes_not_mem (fs : List (Name × Bytes)) (n : Name)
    (h : n ∉ fs.map Prod.fst) : lookupBytes fs n = none := by
  induction fs with
  | nil => rfl
  | cons hd tl ih =>
    obtain ⟨m, c⟩ := hd
    simp only [List.map_cons, List.mem_cons] at h
    push_neg at h
    have hmn : ¬m = n := fun hh => h.1 hh.symm
    simp [lookupBytes, hmn, ih h.2]

theorem localCopies_fst (p : Path) :
    ∀ (fs : List (Name × Bytes)) (rch : List (Name × Entry)),
      (fs.map Prod.fst).Nodup →
      (∀ nc ∈ fs, ∀ dch, lookupChild rch nc.1 ≠ some (Entry.dir dch)) →
      ∀ m, lookupChild (localCopies p fs rch).1 m =
        (match lookupBytes fs m with
         | some c => some (Entry.file c)
         | none => lookupChild rch m) := by
  intro fs
  induction fs with
  | nil =>
    intro rch _ _ m
    simp [localCopies, lookupBytes]
  | cons hd fs ih =>
    intro rch hnd hdir m
    obtain ⟨n, c⟩ := hd
    simp only [List.map_cons, List.nodup_cons] at hnd
    have hnmem : n ∉ fs.map Prod.fst := hnd.1
    cases hc : lookupChild rch n with
    | none =>
      have hpre : ∀ nc ∈ fs, ∀ dch,
          lookupChild (rch ++ [(n, Entry.file c)]) nc.1 ≠
            some (Entry.dir dch) := by
        intro nc hnc dch
        have hne : nc.1 ≠ n := by
          intro hh
          exact hnmem (hh ▸ List.mem_map.2 ⟨nc, hnc, rfl⟩)
        rw [lookupChild_append]
        cases h2 : lookupChild rch nc.1 with
        | some e2 =>
          have := hdir nc (by simp [hnc]) dch
          rw [h2] at this
          simpa using this
        | none => simp [fun hh : n = nc.1 => hne hh.symm]
      have heq : localCopies p ((n, c) :: fs) rch =
          ((localCopies p fs (rch ++ [(n, Entry.file c)])).1,
            (true, Op.copy RootTag.replica (p ++ [n]) ::
              (localCopies p fs (rch ++ [(n, Entry.file c)])).2.2)) := by
        simp [localCopies, hc]
      rw [show (localCopies p ((n, c) :: fs) rch).1 =
          (localCopies p fs (rch ++ [(n, Entry.file c)])).1 by rw [heq]]
      rw [ih _ hnd.2 hpre m]
      by_cases hm : m = n
      · subst hm
        rw [lookupBytes_not_mem fs m hnmem]
        simp [lookupBytes, lookupChild_append, hc]
      · have hnm : ¬n = m := fun hh => hm hh.symm
        cases hb : lookupBytes fs m with
        | some c2 => simp [lookupBytes, hnm, hb]
        | none =>
          simp only [lookupBytes, hnm, if_false, hb, lookupChild_append]
          cases h2 : lookupChild rch m with
          | some e2 => simp
          | none => simp [hnm]
    | some r =>
      cases r with
      | dir dch =>
        exact absurd hc (hdir (n, c) (by simp) dch)
      | file c' =>
        by_cases hcc : c' = c
        · have heq : (localCopies p ((n, c) :: fs) rch).1 =
              (localCopies p fs rch).1 := by
            simp [localCopies, hc, hcc]
          rw [heq, ih _ hnd.2
            (fun nc hnc dch => hdir nc (by simp [hnc]) dch) m]
          by_cases hm : m = n
          · subst hm
            rw [lookupBytes_not_mem fs m hnmem]
            simp [lookupBytes, hc, hcc]
          · have hnm : ¬n = m := fun hh => hm hh.symm
            simp [lookupBytes, hnm]
        · have hpre : ∀ nc ∈ fs, ∀ dch,
              lookupChild (setChild rch n (Entry.file c)) nc.1 ≠
                some (Entry.dir dch) := by
            intro nc hnc dch
            have hne : nc.1 ≠ n := by
              intro hh
              exact hnmem (hh ▸ List.mem_map.2 ⟨nc, hnc, rfl⟩)
            rw [lookupChild_setChild_ne rch n nc.1 _ hne]
            exact hdir nc (by simp [hnc]) dch
          have heq : (localCopies p ((n, c) :: fs) rch).1 =
              (localCopies p fs (setChild rch n (Entry.file c))).1 := by
            simp [localCopies, hc, hcc]
          rw [heq, ih _ hnd.2 hpre m]
          by_cases hm : m = n
          · subst hm
            rw [lookupBytes_not_mem fs m hnmem]
            simp [lookupBytes,
              lookupChild_setChild_self rch m _ (by simp [hc])]
          · have hnm : ¬n = m := fun hh => hm hh.symm
            simp [lookupBytes, hnm,
              lookupChild_setChild_ne rch n m _ hm]

theorem localP1Children_setChild (p : Path) (n : Name) (x : Entry) :
    ∀ (l : List (Name × Entry)) (rch : List (Name × Entry)),
      (∀ m sub, (m, Entry.dir sub) ∈ l → m ≠ n) →
      localP1Children p l (setChild rch n x) =
        (setChild (localP1Children p l rch).1 n x,
          (localP1Children p l rch).2) := by
  intro l
  induction l with
  | nil =>
    intro rch _
    simp [localP1Children_nil]
  | cons hd rest ih =>
    intro rch h
    obtain ⟨m, e⟩ := hd
    cases e with
    | file c =>
      rw [localP1Children_cons_file, localP1Children_cons_file,
        ih rch (fun m' sub' hm' => h m' sub' (by simp [hm']))]
    | dir sub =>
      have hmn : m ≠ n := h m sub (by simp)
      have hrest : ∀ m' sub', (m', Entry.dir sub') ∈ rest → m' ≠ n :=
        fun m' sub' hm' => h m' sub' (by simp [hm'])
      rw [localP1Children_cons_dir, localP1Children_cons_dir,
        lookupChild_setChild_ne rch n m x hmn]
      cases hc : lookupChild rch m with
      | none => exact ih rch hrest
      | some r =>
        rw [ih rch hrest]
        dsimp only
        rw [setChild_comm _ _ _ _ _ hmn]

theorem entry_induction_mem (motive : Entry → Prop)
    (hfile : ∀ c, motive (Entry.file c))
    (hdir : ∀ ch, (∀ x ∈ ch, motive x.2) → motive (Entry.dir ch)) :
    ∀ e, motive e :=
  (entry_induction motive (fun l => ∀ x ∈ l, motive x.2) hfile hdir
    (by intro x hx; cases hx)
    (by
      intro n e rest h1 h2 x hx
      rcases List.mem_cons.1 hx with rfl | hx
      · exact h1
      · exact h2 x hx)).1

theorem compatibleChildren_lookup (sch rch : List (Name × Entry))
    (h : compatibleChildren sch rch = true) (n : Name) (e : Entry)
    (hm : (n, e) ∈ sch) (r : Entry) (hr : lookupChild rch n = some r) :
    compatible e r = true := by
  induction sch with
  | nil => cases hm
  | cons hd rest ih =>
    obtain ⟨m, x⟩ := hd
    rw [compatibleChildren_cons, Bool.and_eq_true] at h
    rcases List.mem_cons.1 hm with heq | hmem
    · rw [Prod.mk.injEq] at heq
      obtain ⟨rfl, rfl⟩ := heq
      rw [hr] at h
      exact h.1
    · exact ih h.2 hmem

theorem compatibleChildren_right_nil (sch : List (Name × Entry)) :
    compatibleChildren sch [] = true := by
  induction sch with
  | nil => rfl
  | cons hd rest ih =>
    obtain ⟨m, x⟩ := hd
    rw [compatibleChildren_cons]
    simp [lookupChild, ih]

theorem wfChildren_of_mem (ch : List (Name × Entry))
    (h : wfChildren ch = true) (n : Name) (e : Entry) (hm : (n, e) ∈ ch) :
    wfEntry e = true := by
  induction ch with
  | nil => cases hm
  | cons hd rest ih =>
    obtain ⟨m, x⟩ := hd
    rw [wfChildren_cons, Bool.and_eq_true] at h
    rcases List.mem_cons.1 hm with heq | hmem
    · rw [Prod.mk.injEq] at heq
      obtain ⟨rfl, rfl⟩ := heq
      exact h.1
    · exact ih h.2 hmem

theorem not_mem_dirNames_of_lookup_none (ch : List (Name × Entry))
    (n : Name) (h : lookupChild ch n = none) : n ∉ dirNames ch := by
  intro hmem
  obtain ⟨sub, hs⟩ := (mem_dirNames_iff ch n).1 hmem
  have := lookupChild_isSome_of_mem ch n _ hs
  rw [h] at this
  simp at this

theorem fileItems_names_nodup (ch : List (Name × Entry))
    (h : namesNodup ch = true) : ((fileItems ch).map Prod.fst).Nodup := by
  induction ch with
  | nil => simp [fileItems]
  | cons hd rest ih =>
    obtain ⟨n, e⟩ := hd
    rw [namesNodup_cons, Bool.and_eq_true] at h
    cases e with
    | dir sub => exact ih h.2
    | file c =>
      simp only [fileItems, List.map_cons, List.nodup_cons]
      refine ⟨?_, ih h.2⟩
      intro hmem
      obtain ⟨x, hm, heq⟩ := List.mem_map.1 hmem
      obtain ⟨m, c'⟩ := x
      dsimp at heq
      subst heq
      have h3 : (m, Entry.file c') ∈ rest :=
        (mem_fileItems_iff rest m c').1 hm
      have h4 := lookupChild_isSome_of_mem rest m _ h3
      rw [Option.isNone_iff_eq_none.1 h.1] at h4
      simp at h4

theorem not_mem_dirNames_of_fileItem (ch : List (Name × Entry)) (n : Name)
    (c : Bytes) (hnd : namesNodup ch = true) (h : (n, c) ∈ fileItems ch) :
    n ∉ dirNames ch := by
  intro hmem
  obtain ⟨sub, hs⟩ := (mem_dirNames_iff ch n).1 hmem
  have h1 := lookupChild_of_mem_nodup ch n _ hnd hs
  have h2 := lookupChild_of_mem_nodup ch n _ hnd
    ((mem_fileItems_iff ch n c).1 h)
  rw [h1] at h2
  cases h2

theorem localP1Children_fst (p : Path) :
    ∀ (sch rch : List (Name × Entry)), namesNodup sch = true →
      ∀ m, lookupChild (localP1Children p sch rch).1 m =
        (match lookupChild sch m with
         | some (Entry.dir sub) =>
             Option.map (fun r => (localP1 (p ++ [m]) (Entry.dir sub) r).1)
               (lookupChild rch m)
         | _ => lookupChild rch m) := by
  intro sch
  induction sch with
  | nil =>
    intro rch _ m
    simp [localP1Children_nil, lookupChild]
  | cons hd rest ih =>
    intro rch hnd m
    obtain ⟨n, e⟩ := hd
    rw [namesNodup_cons, Bool.and_eq_true] at hnd
    have hrn : lookupChild rest n = none := Option.isNone_iff_eq_none.1 hnd.1
    cases e with
    | file c =>
      rw [localP1Children_cons_file, ih rch hnd.2 m]
      by_cases hm : m = n
      · subst hm
        rw [hrn]
        simp [lookupChild]
      · have hnm : ¬n = m := fun hh => hm hh.symm
        simp only [lookupChild, hnm, if_false]
    | dir sub =>
      rw [localP1Children_cons_dir]
      cases hc : lookupChild rch n with
      | none =>
        rw [ih rch hnd.2 m]
        by_cases hm : m = n
        · subst hm
          rw [hrn, hc]
          simp [lookupChild]
        · have hnm : ¬n = m := fun hh => hm hh.symm
          simp only [lookupChild, hnm, if_false]
      | some r =>
        dsimp only
        by_cases hm : m = n
        · subst hm
          have htail : lookupChild (localP1Children p rest rch).1 m =
              lookupChild rch m := by
            rw [ih rch hnd.2 m, hrn]
          rw [lookupChild_setChild_self _ m _ (by simp [htail, hc])]
          simp [lookupChild, hc]
        · have hnm : ¬n = m := fun hh => hm hh.symm
          rw [lookupChild_setChild_ne _ n m _ hm, ih rch hnd.2 m]
          simp only [lookupChild, hnm, if_false]

theorem kindAt_nil_dir (ch : List (Name × Entry)) :
    kindAt (Entry.dir ch) [] = some none := rfl

theorem kindAt_nil_file (c : Bytes) :
    kindAt (Entry.file c) [] = some (some c) := rfl

theorem kindAt_cons_dir (ch : List (Name × Entry)) (n : Name) (q : Path) :
    kindAt (Entry.dir ch) (n :: q) =
      (match lookupChild ch n with
       | none => none
       | some e => kindAt e q) := by
  cases hl : lookupChild ch n with
  | none => simp only [kindAt, lookupPath, hl]
  | some e => simp only [kindAt, lookupPath, hl]

theorem kindAt_cons_file (c : Bytes) (n : Name) (q : Path) :
    kindAt (Entry.file c) (n :: q) = none := rfl

/-- What the fault-free pass 1 leaves at every path of the visited
replica directory: wherever the source has an entry, the replica now has
an entry of the same kind and content; everywhere else the replica is
unchanged. -/
theorem localP1_kind : ∀ (e : Entry), ∀ (p : Path)
    (rch : List (Name × Entry)),
    wfEntry e = true → compatible e (Entry.dir rch) = true →
    ∀ q, kindAt (localP1 p e (Entry.dir rch)).1 q =
      (match kindAt e q with
       | some k => some k
       | none => kindAt (Entry.dir rch) q) := by
  refine entry_induction_mem _ ?_ ?_
  · intro c p rch _ hcompat q
    rw [compatible_file_dir] at hcompat
    cases hcompat
  · intro ch IH p rch hwf hcompat q
    rw [wfEntry_dir, Bool.and_eq_true] at hwf
    rw [compatible_dir_dir] at hcompat
    set rch1 := (localMkdirs p (dirNames ch) rch).1 with hrch1
    set rch2 := (localCopies p (fileItems ch) rch1).1 with hrch2
    have hres : (localP1 p (Entry.dir ch) (Entry.dir rch)).1 =
        Entry.dir (localP1Children p ch rch2).1 := by
      rw [localP1_dir_dir]
    rw [hres]
    have hnotdir : ∀ nc ∈ fileItems ch, ∀ dch,
        lookupChild rch1 nc.1 ≠ some (Entry.dir dch) := by
      intro nc hnc dch hcd
      obtain ⟨n0, c0⟩ := nc
      rw [hrch1, localMkdirs_fst p (dirNames ch) rch n0] at hcd
      have hnd0 : n0 ∉ dirNames ch :=
        not_mem_dirNames_of_fileItem ch n0 c0 hwf.1 hnc
      cases hrc : lookupChild rch n0 with
      | none =>
        rw [hrc] at hcd
        simp [hnd0] at hcd
      | some r0 =>
        rw [hrc] at hcd
        dsimp only at hcd
        cases hcd
        have hmem : (n0, Entry.file c0) ∈ ch :=
          (mem_fileItems_iff ch n0 c0).1 hnc
        have hcf := compatibleChildren_lookup ch rch hcompat n0 _ hmem _ hrc
        rw [compatible_file_dir] at hcf
        cases hcf
    have hrch2_look : ∀ m, lookupChild rch2 m =
        (match lookupBytes (fileItems ch) m with
         | some c => some (Entry.file c)
         | none => lookupChild rch1 m) := by
      intro m
      rw [hrch2]
      exact localCopies_fst p (fileItems ch) rch1
        (fileItems_names_nodup ch hwf.1) hnotdir m
    cases q with
    | nil => rfl
    | cons n q' =>
      rw [kindAt_cons_dir, localP1Children_fst p ch rch2 hwf.1 n]
      cases hsn : lookupChild ch n with
      | none =>
        have h2 : lookupChild rch2 n = lookupChild rch n := by
          rw [hrch2_look n, lookupBytes_fileItems ch n hwf.1, hsn]
          dsimp only
          rw [hrch1, localMkdirs_fst]
          have hnm : n ∉ dirNames ch :=
            not_mem_dirNames_of_lookup_none ch n hsn
          cases hrc : lookupChild rch n with
          | none => simp [hnm]
          | some r0 => simp
        dsimp only
        rw [h2, kindAt_cons_dir, hsn]
        dsimp only
        rw [kindAt_cons_dir]
      | some e0 =>
        cases e0 with
        | file c =>
          have h2 : lookupChild rch2 n = some (Entry.file c) := by
            rw [hrch2_look n, lookupBytes_fileItems ch n hwf.1, hsn]
          dsimp only
          rw [h2, kindAt_cons_dir, hsn]
          dsimp only
          cases q' with
          | nil => rfl
          | cons m q'' =>
            rw [kindAt_cons_file, kindAt_cons_dir]
            cases hrc : lookupChild rch n with
            | none => rfl
            | some r0 =>
              have hmem : (n, Entry.file c) ∈ ch :=
                mem_of_lookupChild ch n _ hsn
              have hcf := compatibleChildren_lookup ch rch hcompat n _
                hmem _ hrc
              cases r0 with
              | file c2 => dsimp only; rw [kindAt_cons_file]
              | dir dch =>
                rw [compatible_file_dir] at hcf
                cases hcf
        | dir sub =>
          have hnin : n ∉ (fileItems ch).map Prod.fst := by
            intro hmem
            obtain ⟨x, hm, heq⟩ := List.mem_map.1 hmem
            obtain ⟨m0, c0⟩ := x
            dsimp at heq
            subst heq
            have h1 := lookupChild_of_mem_nodup ch m0 _ hwf.1
              ((mem_fileItems_iff ch m0 c0).1 hm)
            rw [hsn] at h1
            cases h1
          have hdirmem : n ∈ dirNames ch :=
            lookupChild_dir_mem_dirNames ch n sub hsn
          have hr0 : lookupChild rch2 n =
              some (match lookupChild rch n with
                    | some e => e
                    | none => Entry.dir []) := by
            rw [hrch2_look n, lookupBytes_not_mem _ _ hnin]
            dsimp only
            rw [hrch1, localMkdirs_fst]
            cases hrc : lookupChild rch n with
            | none => simp [hdirmem]
            | some r0 => simp
          have hmem : (n, Entry.dir sub) ∈ ch := mem_of_lookupChild ch n _ hsn
          have hwfsub : wfEntry (Entry.dir sub) = true :=
            wfChildren_of_mem ch hwf.2 n _ hmem
          obtain ⟨rsub, hrsub, hcsub⟩ : ∃ rsub,
              (match lookupChild rch n with
               | some e => e
               | none => Entry.dir []) = Entry.dir rsub ∧
              compatible (Entry.dir sub) (Entry.dir rsub) = true := by
            cases hrc : lookupChild rch n with
            | none =>
              refine ⟨[], rfl, ?_⟩
              rw [compatible_dir_dir]
              exact compatibleChildren_right_nil sub
            | some r0 =>
              have hcf := compatibleChildren_lookup ch rch hcompat n _
                hmem _ hrc
              cases r0 with
              | file c2 =>
                rw [compatible_dir_file] at hcf
                cases hcf
              | dir dch => exact ⟨dch, rfl, hcf⟩
          rw [hrsub] at hr0
          rw [hr0]
          simp only [Option.map_some']
          have hih := IH (n, Entry.dir sub) hmem (p ++ [n]) rsub hwfsub
            hcsub q'
          dsimp only at hih
          rw [hih, kindAt_cons_dir, hsn]
          dsimp only
          cases hk : kindAt (Entry.dir sub) q' with
          | some k => rfl
          | none =>
            dsimp only
            rw [kindAt_cons_dir]
            cases hrc : lookupChild rch n with
            | some r0 =>
              have : r0 = Entry.dir rsub := by
                have h5 : (match lookupChild rch n with
                    | some e => e
                    | none => Entry.dir []) = Entry.dir rsub := hrsub
                rw [hrc] at h5
                exact h5
              rw [this]
            | none =>
              have h5 : (Entry.dir [] : Entry) = Entry.dir rsub := by
                have h6 : (match lookupChild rch n with
                    | some e => e
                    | none => Entry.dir []) = Entry.dir rsub := hrsub
                rw [hrc] at h6
                exact h6
              cases q' with
              | nil => rw [kindAt_nil_dir] at hk; cases hk
              | cons m q'' =>
                rw [← h5, kindAt_cons_dir]
                simp [lookupChild]

/-! ## Pass 1 equals its local description (fault-free run) -/

theorem St_eta (s : St) (h : s.aborted = false) :
    St.mk s.rep s.changes false s.trace = s := by
  cases s
  simp_all

theorem step_mkdir_localize (p : Path) (n : Name) (s : St)
    (rch : List (Name × Entry)) (hab : s.aborted = false)
    (hlook : lookupPath s.rep p = some (Entry.dir rch)) :
    step_mkdir p n s =
      { s with rep := putSub s.rep p (Entry.dir (mkChild rch n)),
               trace := s.trace ++
                 (if (lookupChild rch n).isNone then
                    [Op.mkdir RootTag.replica (p ++ [n])] else []) } := by
  have hpn : lookupPath s.rep (p ++ [n]) = lookupChild rch n := by
    rw [lookupPath_append, hlook]
    simp only [Option.some_bind]
    cases hc : lookupChild rch n with
    | none => simp [lookupPath, hc]
    | some c => simp [lookupPath, hc]
  unfold step_mkdir
  rw [if_neg (by simp [hab])]
  rw [makedirs_localize n p s.rep rch hlook]
  cases hc : lookupChild rch n with
  | none =>
    dsimp only
    rw [hpn, hc]
    simp only [Option.isSome_none, Bool.false_eq_true, if_false,
      Option.isNone_none, if_true]
  | some c =>
    cases c with
    | file cc =>
      dsimp only
      have hmk : mkChild rch n = rch := by simp [mkChild, hc]
      rw [hmk, putSub_lookup_self p s.rep _ hlook]
      simp only [hc, Option.isNone_some, Bool.false_eq_true, if_false,
        List.append_nil]
    | dir dch =>
      dsimp only
      rw [hpn, hc]
      simp only [Option.isSome_some, if_true, hc, Option.isNone_some,
        Bool.false_eq_true, if_false, List.append_nil]

theorem foldl_mkdir_localize (p : Path) :
    ∀ (ns : List Name) (s : St) (rch : List (Name × Entry)),
      s.aborted = false → lookupPath s.rep p = some (Entry.dir rch) →
      ns.foldl (fun t n => step_mkdir p n t) s =
        { s with rep := putSub s.rep p (Entry.dir (localMkdirs p ns rch).1),
                 trace := s.trace ++ (localMkdirs p ns rch).2 } := by
  intro ns
  induction ns with
  | nil =>
    intro s rch hab hlook
    have h1 : localMkdirs p [] rch = (rch, []) := rfl
    rw [List.foldl_nil, h1]
    dsimp only
    rw [putSub_lookup_self p s.rep _ hlook, List.append_nil]
  | cons n ns ih =>
    intro s rch hab hlook
    rw [List.foldl_cons, step_mkdir_localize p n s rch hab hlook]
    have hso : (lookupPath s.rep p).isSome := by simp [hlook]
    have hl2 : lookupPath (putSub s.rep p (Entry.dir (mkChild rch n))) p =
        some (Entry.dir (mkChild rch n)) := lookupPath_putSub p s.rep _ hso
    rw [ih _ (mkChild rch n) (by simp [hab]) (by simpa using hl2)]
    simp only
    rw [putSub_putSub p s.rep _ _ hso]
    have h1 : (localMkdirs p (n :: ns) rch).1 =
        (localMkdirs p ns (mkChild rch n)).1 := rfl
    have h2 : (localMkdirs p (n :: ns) rch).2 =
        (if (lookupChild rch n).isNone then
           [Op.mkdir RootTag.replica (p ++ [n])] else []) ++
          (localMkdirs p ns (mkChild rch n)).2 := by
      simp [localMkdirs]
    rw [h1, h2, List.append_assoc]

theorem calculate_md5_noFaults (root : Entry) (q : Path) :
    calculate_md5 [] root q =
      (match lookupPath root q with
       | some (Entry.file c) => some c
       | _ => none) := by
  unfold calculate_md5 md5_read
  simp only [List.not_mem_nil, if_false]
  cases h : lookupPath root q with
  | none => rfl
  | some e => cases e <;> rfl

theorem foldl_copy_localize (p : Path) :
    ∀ (fs : List (Name × Bytes)) (s : St) (rch : List (Name × Entry)),
      s.aborted = false → lookupPath s.rep p = some (Entry.dir rch) →
      (∀ nc ∈ fs, ∀ dch, lookupChild rch nc.1 ≠ some (Entry.dir dch)) →
      fs.foldl (fun t nc => step_copy noFaults p nc.1 nc.2 t) s =
        { s with rep := putSub s.rep p (Entry.dir (localCopies p fs rch).1),
                 changes := s.changes || (localCopies p fs rch).2.1,
                 trace := s.trace ++ (localCopies p fs rch).2.2 } := by
  intro fs
  induction fs with
  | nil =>
    intro s rch hab hlook _
    have h1 : localCopies p [] rch = (rch, (false, [])) := rfl
    rw [List.foldl_nil, h1]
    dsimp only
    rw [putSub_lookup_self p s.rep _ hlook, List.append_nil, Bool.or_false]
  | cons nc fs ih =>
    intro s rch hab hlook hnd
    obtain ⟨n, c⟩ := nc
    have hso : (lookupPath s.rep p).isSome := by simp [hlook]
    have hpn : lookupPath s.rep (p ++ [n]) = lookupChild rch n := by
      rw [lookupPath_append, hlook]
      simp only [Option.some_bind]
      cases hc : lookupChild rch n with
      | none => simp [lookupPath, hc]
      | some c2 => simp [lookupPath, hc]
    rw [List.foldl_cons]
    have hstep : step_copy noFaults p n c s =
        (match lookupChild rch n with
         | none =>
           { s with
             rep := (putSub s.rep p
               (Entry.dir (rch ++ [(n, Entry.file c)]))),
             changes := true,
             trace := s.trace ++ [Op.copy RootTag.replica (p ++ [n])] }
         | some (Entry.file c') =>
           if c' = c then s
           else
             { s with
               rep := (putSub s.rep p
                 (Entry.dir (setChild rch n (Entry.file c)))),
               changes := true,
               trace := s.trace ++ [Op.copy RootTag.replica (p ++ [n])] }
         | some (Entry.dir _) => s) := by
      unfold step_copy
      rw [if_neg (by simp [hab])]
      dsimp only
      have hnf1 : noFaults.srcUnreadable = [] := rfl
      have hnf2 : noFaults.repUnreadable = [] := rfl
      rw [hnf1, hnf2, calculate_md5_noFaults s.rep (p ++ [n]), hpn]
      simp only [List.not_mem_nil, if_false]
      cases hc : lookupChild rch n with
      | none =>
        rw [if_pos (by simp)]
        dsimp only
        rw [writeFile_localize n c p s.rep rch hlook, hc]
      | some e0 =>
        cases e0 with
        | dir dch => exact absurd hc (hnd (n, c) (by simp) dch)
        | file c' =>
          by_cases hcc : c' = c
          · subst hcc
            rw [if_neg (by simp)]
            dsimp only
            rw [if_pos rfl]
          · rw [if_pos (Or.inr (by
              simp only [ne_eq, Option.some_inj]
              exact fun h => hcc h.symm))]
            dsimp only
            rw [writeFile_localize n c p s.rep rch hlook, hc]
            simp [hcc]
    rw [hstep]
    cases hc : lookupChild rch n with
    | none =>
      dsimp only
      have hpre : ∀ nc2 ∈ fs, ∀ dch,
          lookupChild (rch ++ [(n, Entry.file c)]) nc2.1 ≠
            some (Entry.dir dch) := by
        intro nc2 hnc2 dch
        rw [lookupChild_append]
        cases h2 : lookupChild rch nc2.1 with
        | some e2 =>
          have := hnd nc2 (by simp [hnc2]) dch
          rw [h2] at this
          simpa using this
        | none =>
          by_cases he : n = nc2.1 <;> simp [he]
      have hl2 : lookupPath (putSub s.rep p
          (Entry.dir (rch ++ [(n, Entry.file c)]))) p =
          some (Entry.dir (rch ++ [(n, Entry.file c)])) :=
        lookupPath_putSub p s.rep _ hso
      rw [ih _ (rch ++ [(n, Entry.file c)]) (by simp [hab])
        (by simpa using hl2) hpre]
      dsimp only
      rw [putSub_putSub p s.rep _ _ hso]
      have h1 : (localCopies p ((n, c) :: fs) rch).1 =
          (localCopies p fs (rch ++ [(n, Entry.file c)])).1 := by
        simp [localCopies, hc]
      have h2 : (localCopies p ((n, c) :: fs) rch).2.1 = true := by
        simp [localCopies, hc]
      have h3 : (localCopies p ((n, c) :: fs) rch).2.2 =
          Op.copy RootTag.replica (p ++ [n]) ::
            (localCopies p fs (rch ++ [(n, Entry.file c)])).2.2 := by
        simp [localCopies, hc]
      rw [h1, h2, h3]
      simp [List.append_assoc]
    | some e0 =>
      cases e0 with
      | dir dch => exact absurd hc (hnd (n, c) (by simp) dch)
      | file c' =>
        dsimp only
        by_cases hcc : c' = c
        · rw [if_pos hcc]
          have h1 : localCopies p ((n, c) :: fs) rch =
              localCopies p fs rch := by
            simp only [localCopies, hc]
            rw [if_pos hcc]
          rw [ih s rch hab hlook
            (fun nc2 hnc2 dch => hnd nc2 (by simp [hnc2]) dch), h1]
        · rw [if_neg hcc]
          have hpre : ∀ nc2 ∈ fs, ∀ dch,
              lookupChild (setChild rch n (Entry.file c)) nc2.1 ≠
                some (Entry.dir dch) := by
            intro nc2 hnc2 dch
            by_cases he : nc2.1 = n
            · rw [he, lookupChild_setChild_self rch n _ (by simp [hc])]
              simp
            · rw [lookupChild_setChild_ne rch n nc2.1 _ he]
              exact hnd nc2 (by simp [hnc2]) dch
          have hl2 : lookupPath (putSub s.rep p
              (Entry.dir (setChild rch n (Entry.file c)))) p =
              some (Entry.dir (setChild rch n (Entry.file c))) :=
            lookupPath_putSub p s.rep _ hso
          rw [ih _ (setChild rch n (Entry.file c)) (by simp [hab])
            (by simpa using hl2) hpre]
          dsimp only
          rw [putSub_putSub p s.rep _ _ hso]
          have h1 : (localCopies p ((n, c) :: fs) rch).1 =
              (localCopies p fs (setChild rch n (Entry.file c))).1 := by
            simp [localCopies, hc, hcc]
          have h2 : (localCopies p ((n, c) :: fs) rch).2.1 = true := by
            simp [localCopies, hc, hcc]
          have h3 : (localCopies p ((n, c) :: fs) rch).2.2 =
              Op.copy RootTag.replica (p ++ [n]) ::
                (localCopies p fs (setChild rch n (Entry.file c))).2.2 := by
            simp [localCopies, hc, hcc]
          rw [h1, h2, h3]
          simp [List.append_assoc]

theorem fileItems_notdir_after_mkdirs (p : Path) (ch rch : List (Name × Entry))
    (hnd : namesNodup ch = true) (hcompat : compatibleChildren ch rch = true) :
    ∀ nc ∈ fileItems ch, ∀ dch,
      lookupChild (localMkdirs p (dirNames ch) rch).1 nc.1 ≠
        some (Entry.dir dch) := by
  intro nc hnc dch hcd
  obtain ⟨n0, c0⟩ := nc
  rw [localMkdirs_fst p (dirNames ch) rch n0] at hcd
  have hnd0 : n0 ∉ dirNames ch :=
    not_mem_dirNames_of_fileItem ch n0 c0 hnd hnc
  cases hrc : lookupChild rch n0 with
  | none =>
    rw [hrc] at hcd
    simp [hnd0] at hcd
  | some r0 =>
    rw [hrc] at hcd
    dsimp only at hcd
    cases hcd
    have hmem : (n0, Entry.file c0) ∈ ch := (mem_fileItems_iff ch n0 c0).1 hnc
    have hcf := compatibleChildren_lookup ch rch hcompat n0 _ hmem _ hrc
    rw [compatible_file_dir] at hcf
    cases hcf

theorem dir_child_after_phases (p : Path) (ch rch : List (Name × Entry))
    (hnd : namesNodup ch = true) (hcompat : compatibleChildren ch rch = true)
    (n : Name) (sub : List (Name × Entry))
    (hmem : (n, Entry.dir sub) ∈ ch) :
    ∃ rsub,
      lookupChild (localCopies p (fileItems ch)
          (localMkdirs p (dirNames ch) rch).1).1 n =
        some (Entry.dir rsub) ∧
      compatible (Entry.dir sub) (Entry.dir rsub) = true := by
  have hsn : lookupChild ch n = some (Entry.dir sub) :=
    lookupChild_of_mem_nodup ch n _ hnd hmem
  have hnin : n ∉ (fileItems ch).map Prod.fst := by
    intro hmem2
    obtain ⟨x, hm, heq⟩ := List.mem_map.1 hmem2
    obtain ⟨m0, c0⟩ := x
    dsimp at heq
    subst heq
    have h1 := lookupChild_of_mem_nodup ch m0 _ hnd
      ((mem_fileItems_iff ch m0 c0).1 hm)
    rw [hsn] at h1
    cases h1
  have hdirmem : n ∈ dirNames ch :=
    lookupChild_dir_mem_dirNames ch n sub hsn
  have hlook2 : lookupChild (localCopies p (fileItems ch)
      (localMkdirs p (dirNames ch) rch).1).1 n =
      lookupChild (localMkdirs p (dirNames ch) rch).1 n := by
    rw [localCopies_fst p (fileItems ch) _ (fileItems_names_nodup ch hnd)
      (fileItems_notdir_after_mkdirs p ch rch hnd hcompat) n,
      lookupBytes_not_mem _ _ hnin]
  rw [hlook2, localMkdirs_fst p (dirNames ch) rch n]
  cases hrc : lookupChild rch n with
  | none =>
    refine ⟨[], by simp [hdirmem], ?_⟩
    rw [compatible_dir_dir]
    exact compatibleChildren_right_nil sub
  | some r0 =>
    have hcf := compatibleChildren_lookup ch rch hcompat n _ hmem _ hrc
    cases r0 with
    | file c2 =>
      rw [compatible_dir_file] at hcf
      cases hcf
    | dir dch => exact ⟨dch, by simp, hcf⟩

theorem pass1_localize_all :
    (∀ e : Entry, ∀ (p : Path) (s : St) (rch : List (Name × Entry)),
      s.aborted = false → lookupPath s.rep p = some (Entry.dir rch) →
      wfEntry e = true → compatible e (Entry.dir rch) = true →
      pass1 noFaults p e s =
        { rep := putSub s.rep p (localP1 p e (Entry.dir rch)).1,
          changes := s.changes || (localP1 p e (Entry.dir rch)).2.1,
          aborted := false,
          trace := s.trace ++ (localP1 p e (Entry.dir rch)).2.2 }) ∧
    (∀ l : List (Name × Entry), ∀ (p : Path) (s : St)
      (rch : List (Name × Entry)),
      s.aborted = false → lookupPath s.rep p = some (Entry.dir rch) →
      namesNodup l = true → wfChildren l = true →
      (∀ n sub, (n, Entry.dir sub) ∈ l → ∃ rsub,
        lookupChild rch n = some (Entry.dir rsub) ∧
        compatible (Entry.dir sub) (Entry.dir rsub) = true) →
      (walkChildren p l).foldl (fun t it => pass1Visit noFaults it t) s =
        { rep := putSub s.rep p (Entry.dir (localP1Children p l rch).1),
          changes := s.changes || (localP1Children p l rch).2.1,
          aborted := false,
          trace := s.trace ++ (localP1Children p l rch).2.2 }) := by
  refine entry_induction _ _ ?_ ?_ ?_ ?_
  · intro c p s rch _ _ _ hcompat
    rw [compatible_file_dir] at hcompat
    cases hcompat
  · intro ch IH2 p s rch hab hlook hwf hcompat
    rw [wfEntry_dir, Bool.and_eq_true] at hwf
    rw [compatible_dir_dir] at hcompat
    have hso : (lookupPath s.rep p).isSome := by simp [hlook]
    have hvisit : pass1Visit noFaults (p, ch) s =
        { rep := (putSub s.rep p (Entry.dir (localCopies p (fileItems ch)
            (localMkdirs p (dirNames ch) rch).1).1)),
          changes := (s.changes ||
            (localCopies p (fileItems ch)
              (localMkdirs p (dirNames ch) rch).1).2.1),
          aborted := false,
          trace := (s.trace ++ (localMkdirs p (dirNames ch) rch).2 ++
            (localCopies p (fileItems ch)
              (localMkdirs p (dirNames ch) rch).1).2.2) } := by
      unfold pass1Visit
      dsimp only
      rw [foldl_mkdir_localize p (dirNames ch) s rch hab hlook]
      have hl1 : lookupPath (putSub s.rep p
          (Entry.dir (localMkdirs p (dirNames ch) rch).1)) p =
          some (Entry.dir (localMkdirs p (dirNames ch) rch).1) :=
        lookupPath_putSub p s.rep _ hso
      rw [foldl_copy_localize p (fileItems ch) _
        (localMkdirs p (dirNames ch) rch).1 (by simp [hab])
        (by simpa using hl1)
        (fileItems_notdir_after_mkdirs p ch rch hwf.1 hcompat)]
      dsimp only
      rw [putSub_putSub p s.rep _ _ hso, hab]
    have hp1 : pass1 noFaults p (Entry.dir ch) s =
        (walkChildren p ch).foldl (fun t it => pass1Visit noFaults it t)
          (pass1Visit noFaults (p, ch) s) := by
      unfold pass1
      rw [walk1_dir, List.foldl_cons]
    rw [hp1, hvisit]
    have hl2 : lookupPath (putSub s.rep p
        (Entry.dir (localCopies p (fileItems ch)
          (localMkdirs p (dirNames ch) rch).1).1)) p =
        some (Entry.dir (localCopies p (fileItems ch)
          (localMkdirs p (dirNames ch) rch).1).1) :=
      lookupPath_putSub p s.rep _ hso
    rw [IH2 p _ (localCopies p (fileItems ch)
        (localMkdirs p (dirNames ch) rch).1).1 rfl (by simpa using hl2)
        hwf.1 hwf.2
        (fun n sub hmem => dir_child_after_phases p ch rch hwf.1 hcompat
          n sub hmem)]
    dsimp only
    rw [putSub_putSub p s.rep _ _ hso]
    rw [localP1_dir_dir]
    dsimp only
    simp [List.append_assoc, Bool.or_assoc]
  · intro p s rch hab hlook _ _ _
    rw [walkChildren_nil, List.foldl_nil, localP1Children_nil]
    dsimp only
    rw [putSub_lookup_self p s.rep _ hlook, List.append_nil, Bool.or_false]
    exact (St_eta s hab).symm
  · intro n e rest IH1 IH2 p s rch hab hlook hnd hwfl hdirs
    rw [namesNodup_cons, Bool.and_eq_true] at hnd
    rw [wfChildren_cons, Bool.and_eq_true] at hwfl
    have hso : (lookupPath s.rep p).isSome := by simp [hlook]
    rw [walkChildren_cons, List.foldl_append]
    cases e with
    | file c =>
      rw [walk1_file, List.foldl_nil, localP1Children_cons_file]
      exact IH2 p s rch hab hlook hnd.2 hwfl.2
        (fun m sub hm => hdirs m sub (by simp [hm]))
    | dir sub =>
      obtain ⟨rsub, hrsub, hcsub⟩ := hdirs n sub (by simp)
      have hln : lookupPath s.rep (p ++ [n]) = some (Entry.dir rsub) := by
        rw [lookupPath_append, hlook]
        simp only [Option.some_bind, lookupPath, hrsub]
      have hfold1 : (walk1 (p ++ [n]) (Entry.dir sub)).foldl
          (fun t it => pass1Visit noFaults it t) s =
          pass1 noFaults (p ++ [n]) (Entry.dir sub) s := rfl
      rw [hfold1, IH1 (p ++ [n]) s rsub hab hln hwfl.1 hcsub]
      have hso : (lookupPath s.rep p).isSome := by simp [hlook]
      have hput : ∀ z : Entry, putSub s.rep (p ++ [n]) z =
          putSub s.rep p (Entry.dir (setChild rch n z)) := by
        intro z
        rw [putSub_append p [n] s.rep (Entry.dir rch) z hlook]
        have h1 : putSub (Entry.dir rch) [n] z =
            Entry.dir (setChild rch n z) := by
          simp [putSub, hrsub]
        rw [h1]
      rw [hput]
      set pe := localP1 (p ++ [n]) (Entry.dir sub) (Entry.dir rsub) with hpe
      have hne_rest : ∀ m sub2, (m, Entry.dir sub2) ∈ rest → m ≠ n := by
        intro m sub2 hm heq
        subst heq
        have := lookupChild_isSome_of_mem rest m _ hm
        rw [Option.isNone_iff_eq_none.1 hnd.1] at this
        simp at this
      have hl3 : lookupPath (putSub s.rep p
          (Entry.dir (setChild rch n pe.1))) p =
          some (Entry.dir (setChild rch n pe.1)) :=
        lookupPath_putSub p s.rep _ hso
      have hdirs2 : ∀ m sub2, (m, Entry.dir sub2) ∈ rest → ∃ rsub2,
          lookupChild (setChild rch n pe.1) m = some (Entry.dir rsub2) ∧
          compatible (Entry.dir sub2) (Entry.dir rsub2) = true := by
        intro m sub2 hm
        rw [lookupChild_setChild_ne rch n m _ (hne_rest m sub2 hm)]
        exact hdirs m sub2 (by simp [hm])
      rw [IH2 p _ (setChild rch n pe.1) rfl (by simpa using hl3)
        hnd.2 hwfl.2 hdirs2]
      dsimp only
      rw [putSub_putSub p s.rep _ _ hso]
      rw [localP1Children_setChild p n pe.1 rest rch hne_rest]
      rw [localP1Children_cons_dir, hrsub]
      dsimp only
      simp [List.append_assoc, Bool.or_assoc]

/-! ## Characterisation of pass 2 -/

theorem survivesB_nil (src : Entry) (p : Path) :
    survivesB src p [] = true := rfl

theorem survivesB_cons (src : Entry) (p : Path) (n : Name) (q : Path) :
    survivesB src p (n :: q) =
      ((lookupPath src (p ++ [n])).isSome && survivesB src (p ++ [n]) q) :=
  rfl

theorem survivesB_of_lookup (src : Entry) :
    ∀ (q p : Path), (lookupPath src (p ++ q)).isSome →
      survivesB src p q = true := by
  intro q
  induction q with
  | nil => intro p _; rfl
  | cons n q' ih =>
    intro p h
    have hassoc : p ++ n :: q' = (p ++ [n]) ++ q' := by simp
    rw [hassoc, lookupPath_append] at h
    cases h1 : lookupPath src (p ++ [n]) with
    | none => rw [h1] at h; simp at h
    | some e =>
      rw [h1] at h
      simp only [Option.some_bind] at h
      rw [survivesB_cons, h1]
      simp only [Option.isSome_some, Bool.true_and]
      exact ih (p ++ [n]) (by rw [lookupPath_append, h1]; simpa using h)

theorem lookup_of_survivesB (src : Entry) :
    ∀ (q p : Path), q ≠ [] → survivesB src p q = true →
      (lookupPath src (p ++ q)).isSome := by
  intro q
  induction q with
  | nil => intro p h; exact absurd rfl h
  | cons n q' ih =>
    intro p _ h
    rw [survivesB_cons, Bool.and_eq_true] at h
    have hassoc : p ++ n :: q' = (p ++ [n]) ++ q' := by simp
    rw [hassoc]
    cases hq : q' with
    | nil => simpa using h.1
    | cons m q'' =>
      subst hq
      exact ih (p ++ [n]) (by simp) h.2

theorem kindAt_eq_none_iff (e : Entry) (q : Path) :
    kindAt e q = none ↔ lookupPath e q = none := by
  unfold kindAt
  cases lookupPath e q with
  | none => simp
  | some e2 => cases e2 <;> simp

theorem dir_of_kindAt_nil (e : Entry) (h : kindAt e [] = some none) :
    ∃ ch, e = Entry.dir ch := by
  cases e with
  | file c => simp [kindAt, lookupPath] at h
  | dir ch => exact ⟨ch, rfl⟩

theorem file_of_kindAt_nil (e : Entry) (c : Bytes)
    (h : kindAt e [] = some (some c)) : e = Entry.file c := by
  cases e with
  | file c2 =>
    simp only [kindAt, lookupPath] at h
    cases h
    rfl
  | dir ch => simp [kindAt, lookupPath] at h

theorem pass2_kind_all (src : Entry) :
    (∀ d : Entry, ∀ (p q : Path),
      kindAt (pass2 src p d).1 q =
        (if survivesB src p q then kindAt d q else none)) ∧
    (∀ l : List (Name × Entry),
      (∀ (p : Path) (m : Name),
        lookupChild (pass2Children src p l).1 m =
          (match lookupChild l m with
           | none => none
           | some e =>
             if (lookupPath src (p ++ [m])).isNone then none
             else some (pass2 src (p ++ [m]) e).1)) ∧
      (∀ (n : Name) (e : Entry), (n, e) ∈ l → ∀ (p q : Path),
        kindAt (pass2 src p e).1 q =
          (if survivesB src p q then kindAt e q else none))) := by
  refine entry_induction _ _ ?_ ?_ ?_ ?_
  · intro c p q
    rw [pass2_file]
    cases q with
    | nil => rw [survivesB_nil, if_pos rfl]
    | cons n q' =>
      rw [kindAt_cons_file]
      cases survivesB src p (n :: q') <;> simp
  · intro ch IH2 p q
    rw [pass2_dir]
    dsimp only
    cases q with
    | nil => rw [survivesB_nil, if_pos rfl, kindAt_nil_dir, kindAt_nil_dir]
    | cons n q' =>
      rw [kindAt_cons_dir, IH2.1 p n, survivesB_cons, kindAt_cons_dir]
      cases hl : lookupChild ch n with
      | none =>
        dsimp only
        cases (lookupPath src (p ++ [n])).isSome && survivesB src (p ++ [n]) q' <;> simp
      | some e =>
        dsimp only
        by_cases hex : (lookupPath src (p ++ [n])).isNone = true
        · rw [if_pos hex]
          have hIsF : (lookupPath src (p ++ [n])).isSome = false := by
            rw [Option.isNone_iff_eq_none.1 hex]
            rfl
          rw [hIsF, Bool.false_and]
          simp
        · rw [if_neg hex]
          have hIsT : (lookupPath src (p ++ [n])).isSome = true := by
            cases hh : lookupPath src (p ++ [n]) with
            | none => rw [hh] at hex; simp at hex
            | some e2 => rfl
          rw [hIsT, Bool.true_and]
          exact IH2.2 n e (mem_of_lookupChild ch n e hl) (p ++ [n]) q'
  · constructor
    · intro p m
      rw [pass2Children_nil]
      rfl
    · intro n e hmem
      simp at hmem
  · intro n e rest IH1 IH2
    constructor
    · intro p m
      rw [pass2Children_cons]
      by_cases hk : (lookupPath src (p ++ [n])).isNone = true
      · rw [if_pos hk, IH2.1 p m]
        by_cases hm : m = n
        · subst hm
          cases hl : lookupChild rest m with
          | none => simp [lookupChild, hl, hk]
          | some e2 => simp [lookupChild, hl, hk]
        · have hnm : ¬n = m := fun hh => hm hh.symm
          simp only [lookupChild, hnm, if_false]
      · rw [if_neg hk]
        cases e with
        | file c =>
          dsimp only
          by_cases hm : m = n
          · subst hm
            simp only [lookupChild, if_pos rfl, if_true]
            rw [if_neg hk]
            rfl
          · have hnm : ¬n = m := fun hh => hm hh.symm
            simp only [lookupChild, hnm, if_false]
            exact IH2.1 p m
        | dir ch' =>
          dsimp only
          by_cases hm : m = n
          · subst hm
            simp only [lookupChild, if_pos rfl, if_true]
            rw [if_neg hk]
          · have hnm : ¬n = m := fun hh => hm hh.symm
            simp only [lookupChild, hnm, if_false]
            exact IH2.1 p m
    · intro n2 e2 hmem p q
      rcases List.mem_cons.1 hmem with hh | hh
      · rw [Prod.mk.injEq] at hh
        rw [hh.2]
        exact IH1 p q
      · exact IH2.2 n2 e2 hh p q

/-- The full two-pass body on existing directory roots of a well-formed,
clash-free pair: pass 1 rewrites the replica tree to the local-model
result, pass 2 then prunes it; no exception escapes to the handler and
the function falls off the end (`None`). -/
theorem sync_body_converges (sch rch : List (Name × Entry)) (ch0 : Bool)
    (tr0 : List Op)
    (hwfs : wfEntry (Entry.dir sch) = true)
    (hcompat : compatible (Entry.dir sch) (Entry.dir rch) = true) :
    sync_body noFaults (Entry.dir sch) (Entry.dir rch) ch0 tr0 =
      ⟨some (Entry.dir sch),
        some (pass2 (Entry.dir sch) []
          (localP1 [] (Entry.dir sch) (Entry.dir rch)).1).1,
        none,
        ((ch0 || (localP1 [] (Entry.dir sch) (Entry.dir rch)).2.1) ||
          !(pass2 (Entry.dir sch) []
            (localP1 [] (Entry.dir sch) (Entry.dir rch)).1).2.isEmpty),
        false,
        (tr0 ++ (localP1 [] (Entry.dir sch) (Entry.dir rch)).2.2) ++
          (pass2 (Entry.dir sch) []
            (localP1 [] (Entry.dir sch) (Entry.dir rch)).1).2⟩ := by
  have h1 := pass1_localize_all.1 (Entry.dir sch) []
    ⟨Entry.dir rch, ch0, false, tr0⟩ rch rfl rfl hwfs hcompat
  unfold sync_body
  dsimp only
  rw [h1]
  rfl

/-- After the two passes of a fault-free call on existing, well-formed,
clash-free directory roots, the replica tree has exactly the source's
entries: same kind at every relative path, equal bytes for files. -/
theorem converged_kind (sch rch : List (Name × Entry))
    (hwfs : wfEntry (Entry.dir sch) = true)
    (hcompat : compatible (Entry.dir sch) (Entry.dir rch) = true) :
    ∀ q, kindAt (pass2 (Entry.dir sch) []
        (localP1 [] (Entry.dir sch) (Entry.dir rch)).1).1 q =
      kindAt (Entry.dir sch) q := by
  intro q
  rw [(pass2_kind_all (Entry.dir sch)).1
    (localP1 [] (Entry.dir sch) (Entry.dir rch)).1 [] q]
  have hloc := localP1_kind (Entry.dir sch) [] rch hwfs hcompat q
  cases hk : kindAt (Entry.dir sch) q with
  | some k =>
    have hsv : survivesB (Entry.dir sch) [] q = true := by
      apply survivesB_of_lookup
      rw [List.nil_append]
      cases hlp : lookupPath (Entry.dir sch) q with
      | none =>
        rw [(kindAt_eq_none_iff _ _).2 hlp] at hk
        cases hk
      | some e2 => rfl
    rw [if_pos hsv, hloc, hk]
  | none =>
    have hlp : lookupPath (Entry.dir sch) q = none :=
      (kindAt_eq_none_iff _ _).1 hk
    by_cases hsv : survivesB (Entry.dir sch) [] q = true
    · exfalso
      cases q with
      | nil => rw [kindAt_nil_dir] at hk; cases hk
      | cons n q' =>
        have hlk := lookup_of_survivesB (Entry.dir sch) (n :: q') []
          (by simp) hsv
        rw [List.nil_append, hlp] at hlk
        simp at hlk
    · rw [if_neg hsv]

/-- C1, amended.  Convergence holds for well-formed trees with no
file/directory type clash at any shared relative path: when both roots
exist, the source tree has unique names in every directory, every name
present in both trees at the same relative position has the same kind on
both sides, and no filesystem operation faults, one `sync_folders` call
ends without the outer handler firing, returns Python `None`, and leaves
the replica with exactly the source's entries: at every relative path the
replica has an entry iff the source does, of the same kind, with equal
content for files. -/
theorem c1_convergence (sch rch : List (Name × Entry))
    (hwfs : wfEntry (Entry.dir sch) = true)
    (hcompat : compatible (Entry.dir sch) (Entry.dir rch) = true) :
    (sync_folders noFaults (some (Entry.dir sch))
        (some (Entry.dir rch))).aborted = false ∧
    (sync_folders noFaults (some (Entry.dir sch))
        (some (Entry.dir rch))).ret = none ∧
    ∀ q, (sync_folders noFaults (some (Entry.dir sch))
        (some (Entry.dir rch))).repKindAt q =
      kindAt (Entry.dir sch) q := by
  rw [sync_folders_both, sync_body_converges sch rch false [] hwfs hcompat]
  refine ⟨rfl, rfl, ?_⟩
  intro q
  dsimp only [SyncResult.repKindAt]
  exact converged_kind sch rch hwfs hcompat q

theorem c1_convergence_witness :
    wfEntry (Entry.dir [(0, Entry.file [1])]) = true ∧
    compatible (Entry.dir [(0, Entry.file [1])]) (Entry.dir []) = true ∧
    ((sync_folders noFaults (some (Entry.dir [(0, Entry.file [1])]))
        (some (Entry.dir []))).aborted = false ∧
     (sync_folders noFaults (some (Entry.dir [(0, Entry.file [1])]))
        (some (Entry.dir []))).ret = none ∧
     ∀ q, (sync_folders noFaults (some (Entry.dir [(0, Entry.file [1])]))
        (some (Entry.dir []))).repKindAt q =
          kindAt (Entry.dir [(0, Entry.file [1])]) q) :=
  ⟨by decide, by decide,
    c1_convergence [(0, Entry.file [1])] [] (by decide) (by decide)⟩

/-- C7.  Self-healing roots: when the source root, the replica root, or
both do not exist at call time (the existing ones being well-formed
directory trees), the missing root is created, this creation itself sets
the change flag, the pass runs to completion (no exception reaches the
outer handler, the function falls off the end returning `None`), both
roots exist afterwards, and the replica tree matches the final source
tree at every relative path (same kind, equal file content). -/
theorem c7_self_healing (srcRoot repRoot : Option Entry)
    (hmiss : srcRoot = none ∨ repRoot = none)
    (hsrc : ∀ s0, srcRoot = some s0 →
      ∃ sch, s0 = Entry.dir sch ∧ wfEntry s0 = true)
    (hrep : ∀ r0, repRoot = some r0 → ∃ rch, r0 = Entry.dir rch) :
    (sync_folders noFaults srcRoot repRoot).aborted = false ∧
    (sync_folders noFaults srcRoot repRoot).ret = none ∧
    (sync_folders noFaults srcRoot repRoot).changes = true ∧
    (∃ s1, (sync_folders noFaults srcRoot repRoot).source = some s1) ∧
    (∃ r1, (sync_folders noFaults srcRoot repRoot).replica = some r1) ∧
    ∀ q, (sync_folders noFaults srcRoot repRoot).repKindAt q =
      (sync_folders noFaults srcRoot repRoot).srcKindAt q := by
  cases srcRoot with
  | none =>
    cases repRoot with
    | none =>
      rw [sync_folders_both_missing noFaults rfl rfl,
        sync_body_converges [] [] true
          ([Op.mkRootDir RootTag.source] ++ [Op.mkRootDir RootTag.replica])
          rfl rfl]
      refine ⟨rfl, rfl, rfl, ⟨_, rfl⟩, ⟨_, rfl⟩, ?_⟩
      intro q
      dsimp only [SyncResult.repKindAt, SyncResult.srcKindAt]
      exact converged_kind [] [] rfl rfl q
    | some r0 =>
      obtain ⟨rch, rfl⟩ := hrep r0 rfl
      rw [sync_folders_src_missing noFaults _ rfl,
        sync_body_converges [] rch true [Op.mkRootDir RootTag.source]
          rfl rfl]
      refine ⟨rfl, rfl, rfl, ⟨_, rfl⟩, ⟨_, rfl⟩, ?_⟩
      intro q
      dsimp only [SyncResult.repKindAt, SyncResult.srcKindAt]
      exact converged_kind [] rch rfl rfl q
  | some s0 =>
    rcases hmiss with h | h
    · cases h
    · subst h
      obtain ⟨sch, rfl, hwf⟩ := hsrc s0 rfl
      have hcompat : compatible (Entry.dir sch) (Entry.dir []) = true := by
        rw [compatible_dir_dir]
        exact compatibleChildren_right_nil sch
      rw [sync_folders_rep_missing noFaults _ rfl,
        sync_body_converges sch [] true [Op.mkRootDir RootTag.replica]
          hwf hcompat]
      refine ⟨rfl, rfl, rfl, ⟨_, rfl⟩, ⟨_, rfl⟩, ?_⟩
      intro q
      dsimp only [SyncResult.repKindAt, SyncResult.srcKindAt]
      exact converged_kind sch [] hwf hcompat q

theorem c7_self_healing_witness :
    ((some (Entry.dir [(0, Entry.file [1])]) : Option Entry) = none ∨
      (none : Option Entry) = none) ∧
    (∀ s0, (some (Entry.dir [(0, Entry.file [1])]) : Option Entry) =
        some s0 → ∃ sch, s0 = Entry.dir sch ∧ wfEntry s0 = true) ∧
    (∀ r0, (none : Option Entry) = some r0 →
      ∃ rch, r0 = Entry.dir rch) ∧
    ((sync_folders noFaults (some (Entry.dir [(0, Entry.file [1])]))
        none).aborted = false ∧
     (sync_folders noFaults (some (Entry.dir [(0, Entry.file [1])]))
        none).ret = none ∧
     (sync_folders noFaults (some (Entry.dir [(0, Entry.file [1])]))
        none).changes = true ∧
     (∃ s1, (sync_folders noFaults (some (Entry.dir [(0, Entry.file [1])]))
        none).source = some s1) ∧
     (∃ r1, (sync_folders noFaults (some (Entry.dir [(0, Entry.file [1])]))
        none).replica = some r1) ∧
     ∀ q, (sync_folders noFaults (some (Entry.dir [(0, Entry.file [1])]))
        none).repKindAt q =
       (sync_folders noFaults (some (Entry.dir [(0, Entry.file [1])]))
        none).srcKindAt q) :=
  ⟨Or.inr rfl,
   fun s0 h => ⟨[(0, Entry.file [1])],
     by rw [Option.some_inj] at h; subst h; exact ⟨rfl, by decide⟩⟩,
   fun r0 h => Option.noConfusion h,
   c7_self_healing (some (Entry.dir [(0, Entry.file [1])])) none
     (Or.inr rfl)
     (fun s0 h => ⟨[(0, Entry.file [1])],
       by rw [Option.some_inj] at h; subst h; exact ⟨rfl, by decide⟩⟩)
     (fun r0 h => Option.noConfusion h)⟩

/-! ## No-op lemmas: a second fault-free pass finds nothing to do -/

theorem localMkdirs_noop (p : Path) :
    ∀ (ns : List Name) (rch : List (Name × Entry)),
      (∀ n ∈ ns, (lookupChild rch n).isSome = true) →
      localMkdirs p ns rch = (rch, []) := by
  intro ns
  induction ns with
  | nil => intro rch _; rfl
  | cons n ns ih =>
    intro rch h
    have hn : (lookupChild rch n).isSome = true := h n (by simp)
    obtain ⟨e, he⟩ := Option.isSome_iff_exists.1 hn
    have hmk : mkChild rch n = rch := by simp [mkChild, he]
    have hnone : (lookupChild rch n).isNone = false := by simp [he]
    rw [show localMkdirs p (n :: ns) rch =
      ((localMkdirs p ns (mkChild rch n)).1,
        (if (lookupChild rch n).isNone then
            [Op.mkdir RootTag.replica (p ++ [n])]
          else []) ++
          (localMkdirs p ns (mkChild rch n)).2) from rfl]
    rw [hmk, ih rch (fun m hm => h m (List.mem_cons_of_mem n hm)), hnone]
    simp

theorem localCopies_noop (p : Path) :
    ∀ (fs : List (Name × Bytes)) (rch : List (Name × Entry)),
      (∀ n c, (n, c) ∈ fs → lookupChild rch n = some (Entry.file c)) →
      localCopies p fs rch = (rch, (false, [])) := by
  intro fs
  induction fs with
  | nil => intro rch _; rfl
  | cons hd fs ih =>
    intro rch h
    obtain ⟨n, c⟩ := hd
    have hn := h n c (by simp)
    unfold localCopies
    rw [hn]
    dsimp only
    rw [if_pos rfl]
    exact ih rch (fun m c2 hm => h m c2 (List.mem_cons_of_mem _ hm))

theorem coveredChildren_mem (src : Entry) (p : Path) :
    ∀ (l : List (Name × Entry)), coveredChildren src p l = true →
      ∀ n e, (n, e) ∈ l →
        (lookupPath src (p ++ [n])).isSome = true ∧
        coveredBy src (p ++ [n]) e = true := by
  intro l
  induction l with
  | nil => intro _ n e hm; cases hm
  | cons hd rest ih =>
    intro h n e hm
    obtain ⟨m, x⟩ := hd
    rw [coveredChildren_cons, Bool.and_eq_true, Bool.and_eq_true] at h
    rcases List.mem_cons.1 hm with heq | hmem
    · rw [Prod.mk.injEq] at heq
      obtain ⟨rfl, rfl⟩ := heq
      exact ⟨h.1.1, h.1.2⟩
    · exact ih h.2 n e hmem

/-- When every replica entry is covered by the source, pass 2 deletes
nothing and rebuilds the tree unchanged. -/
theorem pass2_covered_all (src : Entry) :
    (∀ (d : Entry) (p : Path), coveredBy src p d = true →
      pass2 src p d = (d, [])) ∧
    (∀ (l : List (Name × Entry)) (p : Path),
      coveredChildren src p l = true → pass2Children src p l = (l, [])) := by
  refine entry_induction _ _ ?_ ?_ ?_ ?_
  · intro c p _
    exact pass2_file src p c
  · intro ch IH2 p hcov
    rw [coveredBy_dir] at hcov
    rw [pass2_dir, IH2 p hcov]
    have hfil : (((fileItems ch).map Prod.fst ++ dirNames ch).filter
        (fun n => (lookupPath src (p ++ [n])).isNone)) = [] := by
      rw [List.filter_eq_nil_iff]
      intro n hn
      have hsome : (lookupPath src (p ++ [n])).isSome = true := by
        rcases List.mem_append.1 hn with hmf | hmd
        · obtain ⟨⟨n2, c⟩, hmem, rfl⟩ := List.mem_map.1 hmf
          have hch := (mem_fileItems_iff ch n2 c).1 hmem
          exact (coveredChildren_mem src p ch hcov n2 _ hch).1
        · obtain ⟨sub, hmem⟩ := (mem_dirNames_iff ch n).1 hmd
          exact (coveredChildren_mem src p ch hcov n _ hmem).1
      intro hcontra
      rw [Option.isNone_iff_eq_none] at hcontra
      rw [hcontra] at hsome
      simp at hsome
    rw [hfil]
    simp
  · intro p _
    exact pass2Children_nil src p
  · intro n e rest IH1 IH2 p hcov
    rw [coveredChildren_cons, Bool.and_eq_true, Bool.and_eq_true] at hcov
    obtain ⟨⟨hsome, hcovE⟩, hcovR⟩ := hcov
    have hnone : (lookupPath src (p ++ [n])).isNone = false := by
      cases hlp : lookupPath src (p ++ [n]) with
      | none => rw [hlp] at hsome; simp at hsome
      | some _ => rfl
    rw [pass2Children_cons, hnone]
    simp only [Bool.false_eq_true, if_false]
    cases e with
    | file c =>
      dsimp only
      rw [IH2 p hcovR]
    | dir ch' =>
      dsimp only
      rw [IH1 (p ++ [n]) hcovE, IH2 p hcovR]
      simp

/-- A well-formed replica tree all of whose entries exist in the source
(at the offset `p`) is covered: pass 2 will keep everything. -/
theorem coveredBy_of_lookup_all (src : Entry) :
    (∀ (d : Entry) (p : Path), wfEntry d = true →
      (∀ q, kindAt d q ≠ none → (lookupPath src (p ++ q)).isSome = true) →
      coveredBy src p d = true) ∧
    (∀ (l : List (Name × Entry)) (p : Path), namesNodup l = true →
      wfChildren l = true →
      (∀ q, kindAt (Entry.dir l) q ≠ none →
        (lookupPath src (p ++ q)).isSome = true) →
      coveredChildren src p l = true) := by
  refine entry_induction _ _ ?_ ?_ ?_ ?_
  · intro c p _ _
    exact coveredBy_file src p c
  · intro ch IH2 p hwf hk
    rw [wfEntry_dir, Bool.and_eq_true] at hwf
    rw [coveredBy_dir]
    exact IH2 p hwf.1 hwf.2 hk
  · intro p _ _ _
    exact coveredChildren_nil src p
  · intro n e rest IH1 IH2 p hnd hwf hk
    rw [namesNodup_cons, Bool.and_eq_true] at hnd
    rw [wfChildren_cons, Bool.and_eq_true] at hwf
    rw [coveredChildren_cons]
    have hself : lookupChild ((n, e) :: rest) n = some e := by
      simp [lookupChild]
    have hhead : (lookupPath src (p ++ [n])).isSome = true := by
      apply hk [n]
      rw [kindAt_cons_dir, hself]
      cases e with
      | file c => simp [kindAt_nil_file]
      | dir ch2 => simp [kindAt_nil_dir]
    have hcovE : coveredBy src (p ++ [n]) e = true := by
      apply IH1 (p ++ [n]) hwf.1
      intro q hq
      have hstep := hk (n :: q) (by rw [kindAt_cons_dir, hself]; exact hq)
      rw [show p ++ n :: q = (p ++ [n]) ++ q from by simp] at hstep
      exact hstep
    have hcovR : coveredChildren src p rest = true := by
      apply IH2 p hnd.2 hwf.2
      intro q hq
      cases q with
      | nil =>
        apply hk []
        rw [kindAt_nil_dir]
        simp
      | cons m q' =>
        rw [kindAt_cons_dir] at hq
        cases hlm : lookupChild rest m with
        | none => rw [hlm] at hq; simp at hq
        | some e2 =>
          rw [hlm] at hq
          apply hk (m :: q')
          rw [kindAt_cons_dir]
          have hmn : ¬n = m := by
            intro hh
            rw [← hh] at hlm
            rw [Option.isNone_iff_eq_none.1 hnd.1] at hlm
            exact Option.noConfusion hlm
          simp only [lookupChild, hmn, if_false]
          rw [hlm]
          exact hq
    rw [hhead, hcovE, hcovR]
    rfl

/-- Two trees whose entries agree in kind at every relative path are
clash-free, provided the left one is well-formed. -/
theorem compatible_of_kindEq_all :
    (∀ (a : Entry), wfEntry a = true → ∀ b : Entry,
      (∀ q, kindAt a q = kindAt b q) → compatible a b = true) ∧
    (∀ (l : List (Name × Entry)), namesNodup l = true →
      wfChildren l = true → ∀ (rch : List (Name × Entry)),
      (∀ n e, lookupChild l n = some e →
        ∀ q, kindAt e q = kindAt (Entry.dir rch) (n :: q)) →
      compatibleChildren l rch = true) := by
  refine entry_induction _ _ ?_ ?_ ?_ ?_
  · intro c _ b hk
    have hb := hk []
    rw [kindAt_nil_file] at hb
    have hbf := file_of_kindAt_nil b c hb.symm
    subst hbf
    exact compatible_file_file c c
  · intro ch IH2 hwf b hk
    rw [wfEntry_dir, Bool.and_eq_true] at hwf
    have hb := hk []
    rw [kindAt_nil_dir] at hb
    obtain ⟨rch, rfl⟩ := dir_of_kindAt_nil b hb.symm
    rw [compatible_dir_dir]
    apply IH2 hwf.1 hwf.2 rch
    intro n e hl q
    have hstep := hk (n :: q)
    rw [kindAt_cons_dir, hl] at hstep
    exact hstep
  · intro _ _ rch _
    exact compatibleChildren_nil rch
  · intro n e rest IH1 IH2 hnd hwf rch hk
    rw [namesNodup_cons, Bool.and_eq_true] at hnd
    rw [wfChildren_cons, Bool.and_eq_true] at hwf
    rw [compatibleChildren_cons, Bool.and_eq_true]
    have hself : lookupChild ((n, e) :: rest) n = some e := by
      simp [lookupChild]
    constructor
    · cases hlr : lookupChild rch n with
      | none => rfl
      | some r =>
        dsimp only
        apply IH1 hwf.1 r
        intro q
        have hstep := hk n e hself q
        rw [kindAt_cons_dir, hlr] at hstep
        exact hstep
    · apply IH2 hnd.2 hwf.2 rch
      intro m e2 hlm q
      have hmn : ¬n = m := by
        intro hh
        rw [← hh] at hlm
        rw [Option.isNone_iff_eq_none.1 hnd.1] at hlm
        exact Option.noConfusion hlm
      apply hk m e2
      simp only [lookupChild, hmn, if_false]
      exact hlm

/-- On a replica that already matches the source in kind everywhere, the
fault-free pass 1 changes nothing, sets no flag and records no
operation. -/
theorem localP1_noop_all :
    (∀ (e : Entry), wfEntry e = true → ∀ (p : Path) (r : Entry),
      (∀ q, kindAt e q = kindAt r q) →
      localP1 p e r = (r, (false, []))) ∧
    (∀ (l : List (Name × Entry)), wfChildren l = true →
      ∀ (p : Path) (rch : List (Name × Entry)),
      (∀ n sub, (n, Entry.dir sub) ∈ l → ∃ r0,
        lookupChild rch n = some r0 ∧
        (∀ q, kindAt (Entry.dir sub) q = kindAt r0 q)) →
      localP1Children p l rch = (rch, (false, []))) := by
  refine entry_induction _ _ ?_ ?_ ?_ ?_
  · intro c _ p r _
    exact localP1_file p c r
  · intro ch IH2 hwf p r hk
    rw [wfEntry_dir, Bool.and_eq_true] at hwf
    have hb := hk []
    rw [kindAt_nil_dir] at hb
    obtain ⟨rch, rfl⟩ := dir_of_kindAt_nil r hb.symm
    have hmk : localMkdirs p (dirNames ch) rch = (rch, []) := by
      apply localMkdirs_noop
      intro n hn
      obtain ⟨sub, hmem⟩ := (mem_dirNames_iff ch n).1 hn
      have hl := lookupChild_of_mem_nodup ch n _ hwf.1 hmem
      have hstep := hk [n]
      rw [kindAt_cons_dir, hl] at hstep
      dsimp only at hstep
      rw [kindAt_nil_dir, kindAt_cons_dir] at hstep
      cases hlr : lookupChild rch n with
      | none => rw [hlr] at hstep; simp at hstep
      | some r0 => rfl
    have hcp : localCopies p (fileItems ch) rch = (rch, (false, [])) := by
      apply localCopies_noop
      intro n c hnc
      have hmem := (mem_fileItems_iff ch n c).1 hnc
      have hl := lookupChild_of_mem_nodup ch n _ hwf.1 hmem
      have hstep := hk [n]
      rw [kindAt_cons_dir, hl] at hstep
      dsimp only at hstep
      rw [kindAt_nil_file, kindAt_cons_dir] at hstep
      cases hlr : lookupChild rch n with
      | none => rw [hlr] at hstep; simp at hstep
      | some r0 =>
        rw [hlr] at hstep
        dsimp only at hstep
        rw [file_of_kindAt_nil r0 c hstep.symm]
    have hch : localP1Children p ch rch = (rch, (false, [])) := by
      apply IH2 hwf.2 p rch
      intro n sub hmem
      have hl := lookupChild_of_mem_nodup ch n _ hwf.1 hmem
      have hstep := hk [n]
      rw [kindAt_cons_dir, hl] at hstep
      dsimp only at hstep
      rw [kindAt_nil_dir, kindAt_cons_dir] at hstep
      cases hlr : lookupChild rch n with
      | none => rw [hlr] at hstep; simp at hstep
      | some r0 =>
        refine ⟨r0, rfl, ?_⟩
        intro q
        have hq := hk (n :: q)
        rw [kindAt_cons_dir, hl] at hq
        dsimp only at hq
        rw [kindAt_cons_dir, hlr] at hq
        dsimp only at hq
        exact hq
    rw [localP1_dir_dir, hmk]
    dsimp only
    rw [hcp]
    dsimp only
    rw [hch]
    simp
  · intro _ p rch _
    exact localP1Children_nil p rch
  · intro n e rest IH1 IH2 hwf p rch hmem
    rw [wfChildren_cons, Bool.and_eq_true] at hwf
    cases e with
    | file c =>
      rw [localP1Children_cons_file]
      exact IH2 hwf.2 p rch
        (fun m sub hm => hmem m sub (List.mem_cons_of_mem _ hm))
    | dir sub =>
      obtain ⟨r0, hr0, hk0⟩ := hmem n sub (by simp)
      rw [localP1Children_cons_dir, hr0]
      dsimp only
      rw [IH1 hwf.1 (p ++ [n]) r0 hk0]
      rw [IH2 hwf.2 p rch
        (fun m sub2 hm => hmem m sub2 (List.mem_cons_of_mem _ hm))]
      dsimp only
      rw [setChild_self rch n r0 hr0]
      simp

/-! ## The passes preserve well-formedness of the replica tree -/

theorem namesNodup_append_single (ch : List (Name × Entry)) (n : Name)
    (e : Entry) (hnd : namesNodup ch = true)
    (hn : lookupChild ch n = none) :
    namesNodup (ch ++ [(n, e)]) = true := by
  induction ch with
  | nil => simp [namesNodup, lookupChild]
  | cons hd tl ih =>
    obtain ⟨m, x⟩ := hd
    rw [namesNodup_cons, Bool.and_eq_true] at hnd
    rw [lookupChild] at hn
    by_cases hm : m = n
    · rw [if_pos hm] at hn; cases hn
    · rw [if_neg hm] at hn
      rw [List.cons_append, namesNodup_cons, Bool.and_eq_true]
      refine ⟨?_, ih hnd.2 hn⟩
      rw [lookupChild_append, Option.isNone_iff_eq_none.1 hnd.1]
      have hnm : ¬n = m := fun hh => hm hh.symm
      simp [hnm]

theorem wfChildren_append_single (ch : List (Name × Entry)) (n : Name)
    (e : Entry) (hwf : wfChildren ch = true) (he : wfEntry e = true) :
    wfChildren (ch ++ [(n, e)]) = true := by
  induction ch with
  | nil =>
    rw [List.nil_append, wfChildren_cons, he, wfChildren_nil]
    rfl
  | cons hd tl ih =>
    obtain ⟨m, x⟩ := hd
    rw [wfChildren_cons, Bool.and_eq_true] at hwf
    rw [List.cons_append, wfChildren_cons, hwf.1, ih hwf.2]
    rfl

theorem namesNodup_setChild (ch : List (Name × Entry)) (n : Name)
    (x : Entry) (hnd : namesNodup ch = true) :
    namesNodup (setChild ch n x) = true := by
  induction ch with
  | nil => exact hnd
  | cons hd tl ih =>
    obtain ⟨m, y⟩ := hd
    rw [namesNodup_cons, Bool.and_eq_true] at hnd
    by_cases hm : m = n
    · rw [show setChild ((m, y) :: tl) n x = (m, x) :: tl from by
        simp [setChild, hm]]
      rw [namesNodup_cons, hnd.1, hnd.2]
      rfl
    · rw [show setChild ((m, y) :: tl) n x = (m, y) :: setChild tl n x from by
        simp [setChild, hm]]
      rw [namesNodup_cons, ih hnd.2]
      have h1 : (lookupChild (setChild tl n x) m).isSome = false := by
        rw [lookupChild_setChild_isSome, Option.isNone_iff_eq_none.1 hnd.1]
        rfl
      have h2 : (lookupChild (setChild tl n x) m).isNone = true := by
        cases hl2 : lookupChild (setChild tl n x) m with
        | none => rfl
        | some z => rw [hl2] at h1; cases h1
      rw [h2]
      rfl

theorem wfChildren_setChild (ch : List (Name × Entry)) (n : Name)
    (x : Entry) (hwf : wfChildren ch = true) (hx : wfEntry x = true) :
    wfChildren (setChild ch n x) = true := by
  induction ch with
  | nil => exact hwf
  | cons hd tl ih =>
    obtain ⟨m, y⟩ := hd
    rw [wfChildren_cons, Bool.and_eq_true] at hwf
    by_cases hm : m = n
    · rw [show setChild ((m, y) :: tl) n x = (m, x) :: tl from by
        simp [setChild, hm]]
      rw [wfChildren_cons, hx, hwf.2]
      rfl
    · rw [show setChild ((m, y) :: tl) n x = (m, y) :: setChild tl n x from by
        simp [setChild, hm]]
      rw [wfChildren_cons, hwf.1, ih hwf.2]
      rfl

theorem wf_localMkdirs (p : Path) :
    ∀ (ns : List Name) (rch : List (Name × Entry)),
      namesNodup rch = true → wfChildren rch = true →
      namesNodup (localMkdirs p ns rch).1 = true ∧
      wfChildren (localMkdirs p ns rch).1 = true := by
  intro ns
  induction ns with
  | nil => intro rch hnd hwf; exact ⟨hnd, hwf⟩
  | cons n ns ih =>
    intro rch hnd hwf
    have hfst : (localMkdirs p (n :: ns) rch).1 =
        (localMkdirs p ns (mkChild rch n)).1 := rfl
    rw [hfst]
    cases hl : lookupChild rch n with
    | some e =>
      have hmk : mkChild rch n = rch := by simp [mkChild, hl]
      rw [hmk]
      exact ih rch hnd hwf
    | none =>
      have hmk : mkChild rch n = rch ++ [(n, Entry.dir [])] := by
        simp [mkChild, hl]
      rw [hmk]
      exact ih _ (namesNodup_append_single rch n _ hnd hl)
        (wfChildren_append_single rch n _ hwf rfl)

theorem wf_localCopies (p : Path) :
    ∀ (fs : List (Name × Bytes)) (rch : List (Name × Entry)),
      namesNodup rch = true → wfChildren rch = true →
      namesNodup (localCopies p fs rch).1 = true ∧
      wfChildren (localCopies p fs rch).1 = true := by
  intro fs
  induction fs with
  | nil => intro rch hnd hwf; exact ⟨hnd, hwf⟩
  | cons hd fs ih =>
    intro rch hnd hwf
    obtain ⟨n, c⟩ := hd
    cases hl : lookupChild rch n with
    | none =>
      have heq : localCopies p ((n, c) :: fs) rch =
          ((localCopies p fs (rch ++ [(n, Entry.file c)])).1,
            (true, Op.copy RootTag.replica (p ++ [n]) ::
              (localCopies p fs (rch ++ [(n, Entry.file c)])).2.2)) := by
        conv_lhs => unfold localCopies
        rw [hl]
      rw [heq]
      exact ih _ (namesNodup_append_single rch n _ hnd hl)
        (wfChildren_append_single rch n _ hwf rfl)
    | some e =>
      cases e with
      | file c2 =>
        by_cases hc : c2 = c
        · have heq : localCopies p ((n, c) :: fs) rch =
              localCopies p fs rch := by
            conv_lhs => unfold localCopies
            rw [hl]
            dsimp only
            rw [if_pos hc]
          rw [heq]
          exact ih rch hnd hwf
        · have heq : localCopies p ((n, c) :: fs) rch =
              ((localCopies p fs (setChild rch n (Entry.file c))).1,
                (true, Op.copy RootTag.replica (p ++ [n]) ::
                  (localCopies p fs
                    (setChild rch n (Entry.file c))).2.2)) := by
            conv_lhs => unfold localCopies
            rw [hl]
            dsimp only
            rw [if_neg hc]
          rw [heq]
          exact ih _ (namesNodup_setChild rch n _ hnd)
            (wfChildren_setChild rch n _ hwf rfl)
      | dir dch =>
        have heq : localCopies p ((n, c) :: fs) rch =
            localCopies p fs rch := by
          conv_lhs => unfold localCopies
          rw [hl]
        rw [heq]
        exact ih rch hnd hwf

/-- The fault-free pass 1 turns a well-formed replica directory into a
well-formed one (fresh entries get fresh names, overwrites keep the
name). -/
theorem wf_localP1_all :
    (∀ (e : Entry), ∀ (p : Path) (r : Entry), wfEntry r = true →
      wfEntry (localP1 p e r).1 = true) ∧
    (∀ (l : List (Name × Entry)), ∀ (p : Path)
      (rch : List (Name × Entry)), namesNodup rch = true →
      wfChildren rch = true →
      namesNodup (localP1Children p l rch).1 = true ∧
      wfChildren (localP1Children p l rch).1 = true) := by
  refine entry_induction _ _ ?_ ?_ ?_ ?_
  · intro c p r hr
    exact hr
  · intro ch IH2 p r hr
    cases r with
    | file c => exact rfl
    | dir rch =>
      rw [wfEntry_dir, Bool.and_eq_true] at hr
      rw [localP1_dir_dir]
      dsimp only
      rw [wfEntry_dir, Bool.and_eq_true]
      have h1 := wf_localMkdirs p (dirNames ch) rch hr.1 hr.2
      have h2 := wf_localCopies p (fileItems ch)
        (localMkdirs p (dirNames ch) rch).1 h1.1 h1.2
      exact IH2 p _ h2.1 h2.2
  · intro p rch hnd hwf
    exact ⟨hnd, hwf⟩
  · intro n e rest IH1 IH2 p rch hnd hwf
    cases e with
    | file c =>
      rw [localP1Children_cons_file]
      exact IH2 p rch hnd hwf
    | dir sub =>
      rw [localP1Children_cons_dir]
      cases hl : lookupChild rch n with
      | none =>
        dsimp only
        exact IH2 p rch hnd hwf
      | some r =>
        dsimp only
        have htail := IH2 p rch hnd hwf
        have hwr : wfEntry r = true :=
          wfChildren_of_mem rch hwf n r (mem_of_lookupChild rch n r hl)
        have hpe : wfEntry (localP1 (p ++ [n]) (Entry.dir sub) r).1 = true :=
          IH1 (p ++ [n]) r hwr
        exact ⟨namesNodup_setChild _ n _ htail.1,
          wfChildren_setChild _ n _ htail.2 hpe⟩

/-- Pass 2 keeps a sublist of each directory listing, so it preserves
well-formedness; moreover a name absent before it is absent after. -/
theorem wf_pass2_all (src : Entry) :
    (∀ (d : Entry) (p : Path), wfEntry d = true →
      wfEntry (pass2 src p d).1 = true) ∧
    (∀ (l : List (Name × Entry)) (p : Path), namesNodup l = true →
      wfChildren l = true →
      namesNodup (pass2Children src p l).1 = true ∧
      wfChildren (pass2Children src p l).1 = true ∧
      (∀ m, lookupChild l m = none →
        lookupChild (pass2Children src p l).1 m = none)) := by
  refine entry_induction _ _ ?_ ?_ ?_ ?_
  · intro c p _
    exact rfl
  · intro ch IH2 p hwf
    rw [wfEntry_dir, Bool.and_eq_true] at hwf
    rw [pass2_dir]
    dsimp only
    rw [wfEntry_dir, Bool.and_eq_true]
    have h := IH2 p hwf.1 hwf.2
    exact ⟨h.1, h.2.1⟩
  · intro p _ _
    exact ⟨rfl, rfl, fun _ _ => rfl⟩
  · intro n e rest IH1 IH2 p hnd hwf
    rw [namesNodup_cons, Bool.and_eq_true] at hnd
    rw [wfChildren_cons, Bool.and_eq_true] at hwf
    have htail := IH2 p hnd.2 hwf.2
    rw [pass2Children_cons]
    by_cases hk : (lookupPath src (p ++ [n])).isNone = true
    · rw [if_pos hk]
      refine ⟨htail.1, htail.2.1, ?_⟩
      intro m hm
      rw [lookupChild] at hm
      by_cases hmn : n = m
      · rw [if_pos hmn] at hm; cases hm
      · rw [if_neg hmn] at hm
        exact htail.2.2 m hm
    · rw [if_neg hk]
      have hn2 : lookupChild (pass2Children src p rest).1 n = none :=
        htail.2.2 n (Option.isNone_iff_eq_none.1 hnd.1)
      cases e with
      | file c =>
        dsimp only
        refine ⟨?_, ?_, ?_⟩
        · rw [namesNodup_cons, hn2, htail.1]
          rfl
        · rw [wfChildren_cons, htail.2.1]
          rfl
        · intro m hm
          rw [lookupChild] at hm
          by_cases hmn : n = m
          · rw [if_pos hmn] at hm; cases hm
          · rw [if_neg hmn] at hm
            rw [lookupChild, if_neg hmn]
            exact htail.2.2 m hm
      | dir ch' =>
        dsimp only
        have hpe : wfEntry (pass2 src (p ++ [n]) (Entry.dir ch')).1 = true :=
          IH1 (p ++ [n]) hwf.1
        refine ⟨?_, ?_, ?_⟩
        · rw [namesNodup_cons, hn2, htail.1]
          rfl
        · rw [wfChildren_cons, hpe, htail.2.1]
          rfl
        · intro m hm
          rw [lookupChild] at hm
          by_cases hmn : n = m
          · rw [if_pos hmn] at hm; cases hm
          · rw [if_neg hmn] at hm
            rw [lookupChild, if_neg hmn]
            exact htail.2.2 m hm

/-- C5, amended.  For well-formed, clash-free trees a second fault-free
call right after a first one finds nothing to do: the replica tree is
returned unchanged, no operation is performed (empty trace) and the
`changes_made` flag stays false — though the function communicates
neither: it falls off the end and returns `None`, not `False`. -/
theorem c5_idempotent (sch rch : List (Name × Entry)) (rep1 : Entry)
    (hwfs : wfEntry (Entry.dir sch) = true)
    (hwfr : wfEntry (Entry.dir rch) = true)
    (hcompat : compatible (Entry.dir sch) (Entry.dir rch) = true)
    (hrep1 : (sync_folders noFaults (some (Entry.dir sch))
        (some (Entry.dir rch))).replica = some rep1) :
    (sync_folders noFaults (some (Entry.dir sch)) (some rep1)).replica =
      some rep1 ∧
    (sync_folders noFaults (some (Entry.dir sch)) (some rep1)).changes =
      false ∧
    (sync_folders noFaults (some (Entry.dir sch)) (some rep1)).trace = [] ∧
    (sync_folders noFaults (some (Entry.dir sch)) (some rep1)).ret =
      none := by
  rw [sync_folders_both, sync_body_converges sch rch false [] hwfs hcompat]
    at hrep1
  dsimp only at hrep1
  rw [Option.some_inj] at hrep1
  subst hrep1
  obtain ⟨rch2, hR⟩ := dir_of_kindAt_nil
    (pass2 (Entry.dir sch) []
      (localP1 [] (Entry.dir sch) (Entry.dir rch)).1).1
    (by rw [converged_kind sch rch hwfs hcompat []]; exact kindAt_nil_dir sch)
  rw [hR]
  have hkind2 : ∀ q, kindAt (Entry.dir rch2) q = kindAt (Entry.dir sch) q := by
    intro q
    rw [← hR]
    exact converged_kind sch rch hwfs hcompat q
  have hwfL : wfEntry (localP1 [] (Entry.dir sch) (Entry.dir rch)).1 = true :=
    wf_localP1_all.1 (Entry.dir sch) [] (Entry.dir rch) hwfr
  have hwfR2 : wfEntry (Entry.dir rch2) = true := by
    rw [← hR]
    exact (wf_pass2_all (Entry.dir sch)).1 _ [] hwfL
  have hcompat2 : compatible (Entry.dir sch) (Entry.dir rch2) = true :=
    compatible_of_kindEq_all.1 (Entry.dir sch) hwfs (Entry.dir rch2)
      (fun q => (hkind2 q).symm)
  have hnoop1 : localP1 [] (Entry.dir sch) (Entry.dir rch2) =
      (Entry.dir rch2, (false, [])) :=
    localP1_noop_all.1 (Entry.dir sch) hwfs [] (Entry.dir rch2)
      (fun q => (hkind2 q).symm)
  have hcov : coveredBy (Entry.dir sch) [] (Entry.dir rch2) = true := by
    apply (coveredBy_of_lookup_all (Entry.dir sch)).1 (Entry.dir rch2) []
      hwfR2
    intro q hq
    rw [hkind2 q] at hq
    rw [List.nil_append]
    cases hlp : lookupPath (Entry.dir sch) q with
    | none =>
      rw [(kindAt_eq_none_iff _ _).2 hlp] at hq
      exact absurd rfl hq
    | some _ => rfl
  have hnoop2 : pass2 (Entry.dir sch) [] (Entry.dir rch2) =
      (Entry.dir rch2, []) :=
    (pass2_covered_all (Entry.dir sch)).1 (Entry.dir rch2) [] hcov
  rw [sync_folders_both, sync_body_converges sch rch2 false [] hwfs hcompat2,
    hnoop1]
  dsimp only
  rw [hnoop2]
  exact ⟨rfl, rfl, rfl, rfl⟩

theorem c5_idempotent_witness :
    wfEntry (Entry.dir [(0, Entry.file [1])]) = true ∧
    wfEntry (Entry.dir []) = true ∧
    compatible (Entry.dir [(0, Entry.file [1])]) (Entry.dir []) = true ∧
    (sync_folders noFaults (some (Entry.dir [(0, Entry.file [1])]))
      (some (Entry.dir []))).replica =
        some (Entry.dir [(0, Entry.file [1])]) ∧
    ((sync_folders noFaults (some (Entry.dir [(0, Entry.file [1])]))
        (some (Entry.dir [(0, Entry.file [1])]))).replica =
      some (Entry.dir [(0, Entry.file [1])]) ∧
     (sync_folders noFaults (some (Entry.dir [(0, Entry.file [1])]))
        (some (Entry.dir [(0, Entry.file [1])]))).changes = false ∧
     (sync_folders noFaults (some (Entry.dir [(0, Entry.file [1])]))
        (some (Entry.dir [(0, Entry.file [1])]))).trace = [] ∧
     (sync_folders noFaults (some (Entry.dir [(0, Entry.file [1])]))
        (some (Entry.dir [(0, Entry.file [1])]))).ret = none) :=
  ⟨by decide, by decide, by decide, by rfl,
    c5_idempotent [(0, Entry.file [1])] [] (Entry.dir [(0, Entry.file [1])])
      (by decide) (by decide) (by decide) (by rfl)⟩

end SyncFolders
